import Mathlib

set_option maxHeartbeats 1000000

namespace Capibara

/-! Shallow embedding of the capibara repository (fingerprinting, security
validation, script execution and SDK orchestration).  Strings are modelled
as `List Char`; Python functions operating on ASCII text are translated
character by character.  Fuel-bounded recursions are used where the Python
code scans a string left to right; the fuel is always instantiated with a
bound that the scan cannot exceed, so the fuel case is unreachable. -/

/-- ASCII whitespace, modelling Python's regex class `\s` and `str.strip`
on ASCII text (the repository only handles ASCII prompts). -/
def isWs (c : Char) : Bool :=
  c == ' ' || c == '\t' || c == '\n' || c == '\r' || c.toNat == 11 || c.toNat == 12

/-- Python `str.lower` on ASCII text: lowercase each character. -/
def toLowerStr (s : List Char) : List Char := s.map Char.toLower

/-- Python `s.replace(pat, "")`: a single left-to-right scan removing every
non-overlapping occurrence of `pat` (replacements do not cascade).  The fuel
bounds the scan; every step consumes at least one character of `s`, so
`s.length` fuel suffices. -/
def removeAllF : Nat → List Char → List Char → List Char
  | 0, _, s => s
  | _, _, [] => []
  | fuel+1, pat, c :: rest =>
    if !pat.isEmpty && pat.isPrefixOf (c :: rest) then
      removeAllF fuel pat (List.drop (pat.length - 1) rest)
    else
      c :: removeAllF fuel pat rest

/-- Python `s.replace(pat, "")` (see `removeAllF`). -/
def removeAll (pat s : List Char) : List Char := removeAllF s.length pat s

/-- Python `re.sub(r"\s+", " ", s)`: collapse every run of whitespace
characters into a single space (the space is emitted at the last character
of the run, which produces the same string as replacing the whole run). -/
def collapseWs : List Char → List Char
  | [] => []
  | [c] => if isWs c then [' '] else [c]
  | c :: d :: s =>
    if isWs c then
      if isWs d then collapseWs (d :: s) else ' ' :: collapseWs (d :: s)
    else c :: collapseWs (d :: s)

/-- Python `str.strip()` on ASCII text: drop leading and trailing whitespace. -/
def stripWs (s : List Char) : List Char :=
  ((s.dropWhile isWs).reverse.dropWhile isWs).reverse

/-- The stopword set from `normalize_prompt` in
`src/capibara/utils/fingerprint.py`, in the order the literal is written.
(Python iterates a `set`, whose order is unspecified; the claims proved
below do not depend on the iteration order.) -/
def stopwords : List (List Char) :=
  ["please".data, "can you".data, "could you".data, "would you".data,
   "i need".data, "i want".data, "help me".data, "create".data,
   "make".data, "generate".data, "build".data, "write".data]

/-- `normalize_prompt` from `src/capibara/utils/fingerprint.py`:
lowercase, remove each stopword as a literal substring removal, then
collapse whitespace runs to a single space and strip. -/
def normalize_prompt (p : List Char) : List Char :=
  stripWs (collapseWs (stopwords.foldl (fun acc sw => removeAll sw acc) (toLowerStr p)))

/-! ## JSON values

Model of the JSON values handled by `json.dumps` / `json.loads` in the
source.  Numbers are modelled as integers (none of the code under
verification depends on floating-point values); object members keep the
insertion order of the underlying Python dict. -/

inductive Json where
  | null : Json
  | bool (b : Bool) : Json
  | num (n : Int) : Json
  | str (s : List Char) : Json
  | arr (xs : List Json) : Json
  | obj (kvs : List (List Char × Json)) : Json

/-- Lowercase hexadecimal digit. -/
def hexDig (n : Nat) : Char := if n < 10 then Char.ofNat (48 + n) else Char.ofNat (87 + n)

/-- `\uXXXX` escape used by `json.dumps(ensure_ascii=True)`. -/
def uEscape4 (n : Nat) : List Char :=
  ['\\', 'u', hexDig (n / 4096 % 16), hexDig (n / 256 % 16), hexDig (n / 16 % 16), hexDig (n % 16)]

/-- `json.dumps` escaping of a single character (default `ensure_ascii=True`:
short escapes for the common control characters, `\uXXXX` for the other
control and all non-ASCII characters, surrogate pairs above the BMP). -/
def escChar (c : Char) : List Char :=
  if c = '"' then ['\\', '"']
  else if c = '\\' then ['\\', '\\']
  else if c = '\n' then ['\\', 'n']
  else if c = '\t' then ['\\', 't']
  else if c = '\r' then ['\\', 'r']
  else if c.toNat = 8 then ['\\', 'b']
  else if c.toNat = 12 then ['\\', 'f']
  else if c.toNat < 32 || c.toNat > 126 then
    if c.toNat < 65536 then uEscape4 c.toNat
    else uEscape4 (55296 + (c.toNat - 65536) / 1024) ++ uEscape4 (56320 + (c.toNat - 65536) % 1024)
  else [c]

/-- JSON string serialization: `"` + escaped characters + `"`. -/
def renderStr (s : List Char) : List Char := '"' :: (s.map escChar).flatten ++ ['"']

/-- Key comparison used by `sort_keys=True`: Python compares `str` keys
lexicographically by code point, which is the linear order on `List Char`. -/
def keyLe {α : Type} (a b : List Char × α) : Prop := a.1 ≤ b.1

instance {α : Type} : DecidableRel (@keyLe α) := fun a b => by
  unfold keyLe; infer_instance

instance {α : Type} : IsTotal (List Char × α) keyLe := ⟨fun a b => le_total a.1 b.1⟩

instance {α : Type} : IsTrans (List Char × α) keyLe := ⟨fun _ _ _ h h2 => le_trans h h2⟩

/-- Sort key/value pairs by key (the effect of `sort_keys=True`). -/
def sortPairs {α : Type} (kvs : List (List Char × α)) : List (List Char × α) :=
  List.insertionSort keyLe kvs

/-- Join serialized items with the item separator `,` of `separators=(",", ":")`. -/
def joinComma (xs : List (List Char)) : List Char := List.intercalate [','] xs

/-- Render already-serialized object members as `"key":value`. -/
def renderKVs (kvs : List (List Char × List Char)) : List (List Char) :=
  kvs.map (fun kv => renderStr kv.1 ++ ':' :: kv.2)

def openBrace : List Char := "\x7b".data

def closeBrace : List Char := "\x7d".data

/-! `json.dumps(v, sort_keys=True, separators=(",", ":"))`.  The source
serializes each value of an object and sorts the members by key; here the
values are serialized first and the (key, rendered value) pairs are sorted
afterwards, which produces the same string because the comparison only
looks at keys.  (`dumpsSpec` below sorts first, and the two are proved
equal.) -/

mutual

def dumps : Json → List Char
  | .null => "null".data
  | .bool b => if b then "true".data else "false".data
  | .num n => (toString n).data
  | .str s => renderStr s
  | .arr xs => '[' :: joinComma (dumpsList xs) ++ [']']
  | .obj kvs => openBrace ++ joinComma (renderKVs (sortPairs (dumpsKVs kvs))) ++ closeBrace

def dumpsList : List Json → List (List Char)
  | [] => []
  | x :: xs => dumps x :: dumpsList xs

def dumpsKVs : List (List Char × Json) → List (List Char × List Char)
  | [] => []
  | kv :: kvs => (kv.1, dumps kv.2) :: dumpsKVs kvs

end

/-- `normalize_context` from `src/capibara/utils/fingerprint.py`:
`json.dumps(context, sort_keys=True, separators=(",", ":"))`. -/
def normalize_context (c : Json) : List Char := dumps c

/-! ## SHA-256

Executable model of `hashlib.sha256` over byte lists (bytes are `Nat`s
below 256, 32-bit words are `Nat`s reduced modulo `2 ^ 32`). -/

def M32 : Nat := 4294967296

def rotr (n x : Nat) : Nat := ((x >>> n) ||| (x <<< (32 - n))) % M32

def smallSigma0 (x : Nat) : Nat := (rotr 7 x) ^^^ (rotr 18 x) ^^^ (x >>> 3)

def smallSigma1 (x : Nat) : Nat := (rotr 17 x) ^^^ (rotr 19 x) ^^^ (x >>> 10)

def bigSigma0 (x : Nat) : Nat := (rotr 2 x) ^^^ (rotr 13 x) ^^^ (rotr 22 x)

def bigSigma1 (x : Nat) : Nat := (rotr 6 x) ^^^ (rotr 11 x) ^^^ (rotr 25 x)

/-- SHA-256 round constants. -/
def shaK : List Nat :=
  [1116352408, 1899447441, 3049323471, 3921009573, 961987163, 1508970993, 2453635748, 2870763221,
   3624381080, 310598401, 607225278, 1426881987, 1925078388, 2162078206, 2614888103, 3248222580,
   3835390401, 4022224774, 264347078, 604807628, 770255983, 1249150122, 1555081692, 1996064986,
   2554220882, 2821834349, 2952996808, 3210313671, 3336571891, 3584528711, 113926993, 338241895,
   666307205, 773529912, 1294757372, 1396182291, 1695183700, 1986661051, 2177026350, 2456956037,
   2730485921, 2820302411, 3259730800, 3345764771, 3516065817, 3600352804, 4094571909, 275423344,
   430227734, 506948616, 659060556, 883997877, 958139571, 1322822218, 1537002063, 1747873779,
   1955562222, 2024104815, 2227730452, 2361852424, 2428436474, 2756734187, 3204031479, 3329325298]

/-- SHA-256 initial hash value. -/
def shaH0 : List Nat :=
  [1779033703, 3144134277, 1013904242, 2773480762, 1359893119, 2600822924, 528734635, 1541459225]

/-- Big-endian byte decomposition (`k` bytes). -/
def beBytes : Nat → Nat → List Nat
  | 0, _ => []
  | k+1, n => beBytes k (n / 256) ++ [n % 256]

/-- SHA-256 message padding: `0x80`, zeros to 56 mod 64, 64-bit big-endian bit length. -/
def shaPad (msg : List Nat) : List Nat :=
  msg ++ [128] ++ List.replicate ((120 - (msg.length + 1) % 64) % 64) 0 ++ beBytes 8 (8 * msg.length)

/-- Split into 64-byte blocks (fuel-bounded; `l.length` fuel suffices). -/
def chunksF : Nat → List Nat → List (List Nat)
  | 0, _ => []
  | _+1, [] => []
  | f+1, l => l.take 64 :: chunksF f (l.drop 64)

def chunks (l : List Nat) : List (List Nat) := chunksF l.length l

/-- Combine bytes into big-endian 32-bit words. -/
def toWords : List Nat → List Nat
  | b0 :: b1 :: b2 :: b3 :: rest => (((b0 * 256 + b1) * 256 + b2) * 256 + b3) :: toWords rest
  | _ => []

/-- One step of the message-schedule extension. -/
def extendLoop : Nat → List Nat → List Nat
  | 0, acc => acc
  | k+1, acc =>
    let n := acc.length
    let wi := (smallSigma1 (acc.getD (n - 2) 0) + acc.getD (n - 7) 0 +
      smallSigma0 (acc.getD (n - 15) 0) + acc.getD (n - 16) 0) % M32
    extendLoop k (acc ++ [wi])

/-- Extend 16 words to the 64-word message schedule. -/
def extendWords (w16 : List Nat) : List Nat := extendLoop 48 w16

/-- One SHA-256 compression round on the state `[a,b,c,d,e,f,g,h]`. -/
def shaRound (st : List Nat) (k w : Nat) : List Nat :=
  match st with
  | [a, b, c, d, e, f, g, h] =>
    let t1 := (h + bigSigma1 e + ((e &&& f) ^^^ ((e ^^^ 4294967295) &&& g)) + k + w) % M32
    let t2 := (bigSigma0 a + ((a &&& b) ^^^ (a &&& c) ^^^ (b &&& c))) % M32
    [(t1 + t2) % M32, a, b, c, (d + t1) % M32, e, f, g]
  | _ => st

/-- Process one 64-byte block. -/
def processBlock (h : List Nat) (block : List Nat) : List Nat :=
  let st := (List.zip shaK (extendWords (toWords block))).foldl
    (fun st kw => shaRound st kw.1 kw.2) h
  (List.zip h st).map (fun p => (p.1 + p.2) % M32)

/-- SHA-256 digest as eight 32-bit words. -/
def sha256Words (msg : List Nat) : List Nat := (chunks (shaPad msg)).foldl processBlock shaH0

/-- Render a 32-bit word as 8 lowercase hex characters. -/
def wordHex (w : Nat) : List Char :=
  [hexDig (w / 268435456 % 16), hexDig (w / 16777216 % 16), hexDig (w / 1048576 % 16),
   hexDig (w / 65536 % 16), hexDig (w / 4096 % 16), hexDig (w / 256 % 16),
   hexDig (w / 16 % 16), hexDig (w % 16)]

/-- `hashlib.sha256(bytes).hexdigest()`. -/
def sha256hex (msg : List Nat) : List Char := ((sha256Words msg).map wordHex).flatten

/-- UTF-8 encoding of one character (Python `str.encode()`). -/
def utf8Char (c : Char) : List Nat :=
  let n := c.toNat
  if n < 128 then [n]
  else if n < 2048 then [192 + n / 64, 128 + n % 64]
  else if n < 65536 then [224 + n / 4096, 128 + n / 64 % 64, 128 + n % 64]
  else [240 + n / 262144, 128 + n / 4096 % 64, 128 + n / 64 % 64, 128 + n % 64]

/-- Python `str.encode()` (UTF-8). -/
def utf8Encode (s : List Char) : List Nat := (s.map utf8Char).flatten

/-- `hashlib.sha256(s.encode()).hexdigest()`. -/
def sha256hexOfString (s : List Char) : List Char := sha256hex (utf8Encode s)

/-- `generate_fingerprint` from `src/capibara/utils/fingerprint.py`:
normalize the prompt and context, compose
`norm_prompt|norm_context|language|template_version`, SHA-256, first 16
hex characters. -/
def generate_fingerprint (prompt : List Char) (context : Json)
    (language tv : List Char) : List Char :=
  (sha256hexOfString (normalize_prompt prompt ++ '|' :: normalize_context context ++
    '|' :: language ++ '|' :: tv)).take 16

/-! ## Specification-side definitions

These definitions follow the wording of the specification (§4.1 and the
claims) rather than the structure of the source; the refinement theorems
below prove them equal to the source-side definitions. -/

/-- Prepend a character to the first piece of a split (creating a piece if
there is none). -/
def consHead (c : Char) : List (List Char) → List (List Char)
  | [] => [[c]]
  | p :: ps => (c :: p) :: ps

/-- The pieces of `s` between the non-overlapping left-to-right occurrences
of `pat` (same fuel convention as `removeAllF`). -/
def splitRemF : Nat → List Char → List Char → List (List Char)
  | 0, _, s => [s]
  | _, _, [] => [[]]
  | fuel+1, pat, c :: rest =>
    if !pat.isEmpty && pat.isPrefixOf (c :: rest) then
      [] :: splitRemF fuel pat (List.drop (pat.length - 1) rest)
    else
      consHead c (splitRemF fuel pat rest)

/-- Spec side of literal substring removal: delete every non-overlapping
occurrence of `pat`, i.e. concatenate the pieces around the occurrences. -/
def removeOccurrences (pat s : List Char) : List Char :=
  (splitRemF s.length pat s).flatten

def notWs (c : Char) : Bool := !isWs c

/-- One right-to-left pass splitting a string into words: returns the word
fragment touching the left edge (possibly empty) and the completed words
after it. -/
def wordsGo : List Char → List Char × List (List Char)
  | [] => ([], [])
  | c :: rest =>
    if isWs c then
      ([], if (wordsGo rest).1 = [] then (wordsGo rest).2
           else (wordsGo rest).1 :: (wordsGo rest).2)
    else ((c :: (wordsGo rest).1), (wordsGo rest).2)

/-- The whitespace-separated words of `s`, in order. -/
def wordsWs (s : List Char) : List (List Char) :=
  if (wordsGo s).1 = [] then (wordsGo s).2 else (wordsGo s).1 :: (wordsGo s).2

/-- Drop trailing whitespace. -/
def dropTrailingWs (s : List Char) : List Char :=
  (s.reverse.dropWhile isWs).reverse

/-- Adjacent characters are not both whitespace (the invariant produced by
whitespace-run collapsing). -/
def wsSep (a b : Char) : Prop := isWs a = false ∨ isWs b = false

/-- Spec-side prompt normalization (§4.1): lowercase, remove the fixed
stopword set as literal substring removals, then collapse whitespace runs
to single spaces and trim — phrased as splitting into whitespace-separated
words and rejoining with single spaces. -/
def promptNormSpec (p : List Char) : List Char :=
  List.intercalate [' ']
    (wordsWs (stopwords.foldl (fun acc sw => removeOccurrences sw acc) (toLowerStr p)))

/-- Spec-side context normalization (§4.1): JSON-serialize with keys
sorted lexicographically and no extraneous whitespace — the members of an
object are sorted by key first and then each value is serialized. -/
def dumpsSpec : Json → List Char
  | .null => "null".data
  | .bool b => if b then "true".data else "false".data
  | .num n => (toString n).data
  | .str s => renderStr s
  | .arr xs => '[' :: joinComma (xs.attach.map (fun x => dumpsSpec x.1)) ++ [']']
  | .obj kvs => openBrace ++
      joinComma ((sortPairs kvs).attach.map
        (fun kv => renderStr kv.1.1 ++ ':' :: dumpsSpec kv.1.2)) ++ closeBrace
termination_by j => sizeOf j
decreasing_by
  · have := List.sizeOf_lt_of_mem x.2
    simp only [Json.arr.sizeOf_spec]
    omega
  · have hmem : kv.1 ∈ kvs := (List.perm_insertionSort keyLe kvs).mem_iff.mp kv.2
    have h1 := List.sizeOf_lt_of_mem hmem
    have h2 : sizeOf kv.1.2 < sizeOf kv.1 := by
      obtain ⟨k, v⟩ := kv.1
      simp only [Prod.mk.sizeOf_spec]
      omega
    simp only [Json.obj.sizeOf_spec]
    omega

/-- Spec-side fingerprint (§4.1): compose
`normalized_prompt|normalized_context|language|template_version`, SHA-256,
first 16 hex characters. -/
def fingerprintSpec (prompt : List Char) (context : Json)
    (language tv : List Char) : List Char :=
  (sha256hexOfString (promptNormSpec prompt ++ '|' :: dumpsSpec context ++
    '|' :: language ++ '|' :: tv)).take 16

/-- Map over the values of key/value pairs. -/
def mapSnd {α β : Type} (f : α → β) (kvs : List (List Char × α)) : List (List Char × β) :=
  kvs.map (fun kv => (kv.1, f kv.2))

/-! Well-formedness of a JSON value: object keys are duplicate-free at
every level (a Python dict cannot hold duplicate keys). -/

mutual

def wfJson : Json → Bool
  | .null => true
  | .bool _ => true
  | .num _ => true
  | .str _ => true
  | .arr xs => wfList xs
  | .obj kvs => decide ((kvs.map Prod.fst).Nodup) && wfKVs kvs

def wfList : List Json → Bool
  | [] => true
  | x :: xs => wfJson x && wfList xs

def wfKVs : List (List Char × Json) → Bool
  | [] => true
  | kv :: kvs => wfJson kv.2 && wfKVs kvs

end

/-- `JsonPerm a b`: `b` is obtained from `a` by re-ordering the members of
objects (at any nesting depth); keys and all non-object structure are
unchanged. -/
inductive JsonPerm : Json → Json → Prop
  | null : JsonPerm .null .null
  | bool (b : Bool) : JsonPerm (.bool b) (.bool b)
  | num (n : Int) : JsonPerm (.num n) (.num n)
  | str (s : List Char) : JsonPerm (.str s) (.str s)
  | arr {xs ys : List Json} : List.Forall₂ JsonPerm xs ys → JsonPerm (.arr xs) (.arr ys)
  | obj {kvs kvs2 kvs3 : List (List Char × Json)} :
      List.map Prod.fst kvs = List.map Prod.fst kvs2 →
      List.Forall₂ JsonPerm (List.map Prod.snd kvs) (List.map Prod.snd kvs2) →
      List.Perm kvs2 kvs3 → JsonPerm (.obj kvs) (.obj kvs3)

/-! ## PolicyValidator (`SecurityManager` in src/capibara/utils/security.py) -/

/-- One element of a (restricted) regular expression: a single-character
class, or the Kleene star of a single-character class.  The blocked
patterns of `SecurityManager` use only literal characters, `\s*`, `\w*`
and (negated) character classes, all expressible as sequences of these. -/
inductive ReAtom where
  | one (p : Char → Bool) : ReAtom
  | star (p : Char → Bool) : ReAtom

/-- Match a sequence of atoms against a prefix of `s`, with backtracking
for the stars (fuel-bounded; every step consumes an atom or a character,
so `atoms.length + s.length + 1` fuel suffices). -/
def matchAtomsF : Nat → List ReAtom → List Char → Bool
  | 0, _, _ => false
  | _+1, [], _ => true
  | fuel+1, .one p :: atoms, s =>
    match s with
    | [] => false
    | c :: rest => p c && matchAtomsF fuel atoms rest
  | fuel+1, .star p :: atoms, s =>
    matchAtomsF fuel atoms s ||
      (match s with
       | [] => false
       | c :: rest => p c && matchAtomsF fuel (.star p :: atoms) rest)

/-- `re.search`: match the atom sequence starting at any position of `s`. -/
def reSearch (atoms : List ReAtom) (s : List Char) : Bool :=
  s.tails.any (fun t => matchAtomsF (atoms.length + t.length + 1) atoms t)

/-- The class `\w` (ASCII, as matched on lowercased text). -/
def wordClass (c : Char) : Bool := c.isAlphanum || c == '_'

/-- A literal character atom. -/
def lit (c : Char) : ReAtom := .one (fun d => d == c)

/-- Literal atoms for a string. -/
def lits (s : List Char) : List ReAtom := s.map lit

/-- The class `['\"]` (quote characters). -/
def quoteClass (c : Char) : Bool := c == Char.ofNat 39 || c == '"'

/-- A dangerous-call pattern `name\s*\(`. -/
def callPat (name : List Char) : List ReAtom := lits name ++ [.star isWs, lit '(']

/-- `blocked_patterns` from `SecurityManager.__init__`: each entry is the
compiled pattern and the literal pattern text used in the error message.
`re.IGNORECASE` is modelled by matching against the lowercased script (all
pattern literals are lowercase). -/
def blocked_patterns : List (List ReAtom × List Char) :=
  [(callPat "__import__".data, "__import__\\s*\\(".data),
   (callPat "exec".data, "exec\\s*\\(".data),
   (callPat "eval".data, "eval\\s*\\(".data),
   (callPat "compile".data, "compile\\s*\\(".data),
   (lits "open".data ++ [.star isWs, lit '(', .star isWs, .one quoteClass,
      .star (fun c => !quoteClass c), lit '.', lit '.', lit '/'],
    "open\\s*\\(\\s*[\x27\\\"][^\x27\\\"]*\\.\\./".data),
   (lits "open".data ++ [.star isWs, lit '(', .star isWs, .one quoteClass,
      .star (fun c => !quoteClass c), lit '.', lit '.', lit '\\'],
    "open\\s*\\(\\s*[\x27\\\"][^\x27\\\"]*\\.\\.\\\\".data),
   (callPat "subprocess.run".data, "subprocess\\.run\\s*\\(".data),
   (callPat "os.system".data, "os\\.system\\s*\\(".data),
   (callPat "os.popen".data, "os\\.popen\\s*\\(".data),
   (lits "os.exec".data ++ [.star wordClass, .star isWs, lit '('],
    "os\\.exec\\w*\\s*\\(".data),
   (lits "os.spawn".data ++ [.star wordClass, .star isWs, lit '('],
    "os\\.spawn\\w*\\s*\\(".data),
   (callPat "os.fork".data, "os\\.fork\\s*\\(".data),
   (callPat "os.kill".data, "os\\.kill\\s*\\(".data),
   (callPat "os.remove".data, "os\\.remove\\s*\\(".data),
   (callPat "os.unlink".data, "os\\.unlink\\s*\\(".data),
   (callPat "os.rmdir".data, "os\\.rmdir\\s*\\(".data),
   (callPat "os.removedirs".data, "os\\.removedirs\\s*\\(".data),
   (callPat "shutil.rmtree".data, "shutil\\.rmtree\\s*\\(".data),
   (callPat "shutil.move".data, "shutil\\.move\\s*\\(".data),
   (callPat "shutil.copy".data, "shutil\\.copy\\s*\\(".data),
   (callPat "shutil.copytree".data, "shutil\\.copytree\\s*\\(".data)]

/-- `allowed_imports` from `SecurityManager.__init__`. -/
def allowed_imports : List (List Char) :=
  ["json".data, "sys".data, "os".data, "pathlib".data, "datetime".data, "time".data,
   "math".data, "random".data, "collections".data, "itertools".data, "functools".data,
   "operator".data, "re".data, "string".data, "urllib".data, "http".data, "base64".data,
   "hashlib".data, "uuid".data, "tempfile".data, "shutil".data, "zipfile".data,
   "tarfile".data, "csv".data, "xml".data, "html".data, "email".data, "logging".data,
   "subprocess".data, "threading".data, "multiprocessing".data, "queue".data,
   "socket".data, "ssl".data, "gzip".data, "bz2".data, "lzma".data, "pickle".data,
   "copy".data, "warnings".data, "numpy".data, "pandas".data, "matplotlib".data,
   "seaborn".data, "scipy".data, "sklearn".data, "requests".data, "urllib3".data,
   "httpx".data, "moviepy".data, "PIL".data, "opencv".data, "cv2".data, "yaml".data,
   "toml".data, "configparser".data, "argparse".data, "click".data]

/-- Python's substring test `needle in hay`. -/
def isSubstr (needle hay : List Char) : Bool :=
  hay.tails.any (fun t => needle.isPrefixOf t)

/-- The manifest fields read by the executor and the validator
(`deps`, `entry`, `allow.network`, `allow.fs`); the remaining
`ScriptManifest` fields are metadata never read on the verified paths. -/
structure Manifest where
  entry : List Char
  deps : List (List Char)
  network : Bool
  fs : List (List Char)

/-- `SecurityManager._is_import_allowed`: the import name is in the fixed
allowlist, or it occurs as a substring of some lowercased dependency
string (note: the import name itself is not lowercased). -/
def _is_import_allowed (import_name : List Char) (m : Manifest) : Bool :=
  allowed_imports.contains import_name ||
    m.deps.any (fun dep => isSubstr import_name (toLowerStr dep))

/-- `SecurityManager.validate_script`.  The outcome of `ast.parse` +
`_extract_imports` (Python's parser, external to the repository) is a
parameter: `.error msg` models a `SyntaxError` with text `msg`, `.ok
names` the set of collected root module names (as a list). -/
def validate_script (script : List Char)
    (parsed : Except (List Char) (List (List Char))) (m : Manifest) : List (List Char) :=
  let patternErrors := blocked_patterns.filterMap
    (fun pr => if reSearch pr.1 (toLowerStr script) then
        some ("Blocked pattern detected: ".data ++ pr.2) else none)
  let importErrors := match parsed with
    | .error e => ["Syntax error in script: ".data ++ e]
    | .ok imports => imports.filterMap
        (fun name => if _is_import_allowed name m then none
          else some ("Import not allowed: ".data ++ name))
  patternErrors ++ importErrors

/-- The claim C5 reading of import permission: allowlist membership, or a
case-insensitive substring match against a declared dependency (both sides
lowercased). -/
def claimImportAllowed (import_name : List Char) (m : Manifest) : Bool :=
  allowed_imports.contains import_name ||
    m.deps.any (fun dep => isSubstr (toLowerStr import_name) (toLowerStr dep))

/-! ## `json.loads` (used by the runner to parse script output and by the
client to parse the cached manifest).  Numbers are modelled as integers;
floating-point literals are out of scope.  Objects keep the last value of
a duplicated key at its first position, like a Python dict. -/

/-- JSON insignificant whitespace (RFC 8259: space, tab, newline, return). -/
def isWsJson (c : Char) : Bool := c == ' ' || c == '\t' || c == '\n' || c == '\r'

def skipWsJ (s : List Char) : List Char := s.dropWhile isWsJson

/-- Value of one hexadecimal digit. -/
def hexVal (c : Char) : Option Nat :=
  if '0' ≤ c ∧ c ≤ '9' then some (c.toNat - 48)
  else if 'a' ≤ c ∧ c ≤ 'f' then some (c.toNat - 87)
  else if 'A' ≤ c ∧ c ≤ 'F' then some (c.toNat - 55)
  else none

/-- Parse exactly four hex digits. -/
def parseHex4 : List Char → Option (Nat × List Char)
  | c1 :: c2 :: c3 :: c4 :: rest => do
    let v1 ← hexVal c1
    let v2 ← hexVal c2
    let v3 ← hexVal c3
    let v4 ← hexVal c4
    pure (((v1 * 16 + v2) * 16 + v3) * 16 + v4, rest)
  | _ => none

/-- Python dict insertion: a repeated key keeps its first position and
takes the new value. -/
def dictInsert (kvs : List (List Char × Json)) (k : List Char) (v : Json) :
    List (List Char × Json) :=
  if kvs.any (fun kv => kv.1 == k) then
    kvs.map (fun kv => if kv.1 == k then (k, v) else kv)
  else kvs ++ [(k, v)]

/-- Parse the body of a JSON string after the opening quote; returns the
decoded characters and the input after the closing quote.  Surrogate
pairs in `\uXXXX` escapes are combined; lone surrogates (which Python
would keep) are rejected, and unescaped control characters are rejected
as in strict `json.loads`. -/
def parseStrBody : Nat → List Char → Option (List Char × List Char)
  | 0, _ => none
  | _+1, [] => none
  | fuel+1, c :: rest =>
    if c == '"' then some ([], rest)
    else if c == '\\' then
      match rest with
      | [] => none
      | e :: rest2 =>
        if e == 'u' then
          match parseHex4 rest2 with
          | none => none
          | some (n, rest3) =>
            if 55296 ≤ n ∧ n ≤ 56319 then
              match rest3 with
              | '\\' :: 'u' :: rest4 =>
                match parseHex4 rest4 with
                | some (n2, rest5) =>
                  if 56320 ≤ n2 ∧ n2 ≤ 57343 then
                    (parseStrBody fuel rest5).map
                      (fun p => (Char.ofNat (65536 + (n - 55296) * 1024 + (n2 - 56320)) :: p.1, p.2))
                  else none
                | none => none
              | _ => none
            else if 56320 ≤ n ∧ n ≤ 57343 then none
            else (parseStrBody fuel rest3).map (fun p => (Char.ofNat n :: p.1, p.2))
        else
          let d : Option Char :=
            if e == '"' then some '"'
            else if e == '\\' then some '\\'
            else if e == '/' then some '/'
            else if e == 'b' then some (Char.ofNat 8)
            else if e == 'f' then some (Char.ofNat 12)
            else if e == 'n' then some '\n'
            else if e == 'r' then some '\r'
            else if e == 't' then some '\t'
            else none
          match d with
          | none => none
          | some ch => (parseStrBody fuel rest2).map (fun p => (ch :: p.1, p.2))
    else if c.toNat < 32 then none
    else (parseStrBody fuel rest).map (fun p => (c :: p.1, p.2))

/-- Parse an optionally signed decimal integer. -/
def parseIntJ (s : List Char) : Option (Int × List Char) :=
  let core (t : List Char) : Option (Nat × List Char) :=
    let digits := t.takeWhile Char.isDigit
    if digits.isEmpty then none
    else some (digits.foldl (fun acc c => acc * 10 + (c.toNat - 48)) 0,
      t.dropWhile Char.isDigit)
  match s with
  | '-' :: t => (core t).map (fun p => (-(p.1 : Int), p.2))
  | t => (core t).map (fun p => ((p.1 : Int), p.2))

/-- Build a Python dict from parsed members in order (later duplicate keys
override, keeping the first position). -/
def dictify (pairs : List (List Char × Json)) : List (List Char × Json) :=
  pairs.foldl (fun acc kv => dictInsert acc kv.1 kv.2) []

mutual

/-- Parse one JSON value (after leading whitespace is skipped by the
caller where required; this parser skips its own leading whitespace). -/
def jValF : Nat → List Char → Option (Json × List Char)
  | 0, _ => none
  | fuel+1, s =>
    let s := skipWsJ s
    match s with
    | [] => none
    | c :: rest =>
      if c == 'n' then
        if "ull".data.isPrefixOf rest then some (.null, rest.drop 3) else none
      else if c == 't' then
        if "rue".data.isPrefixOf rest then some (.bool true, rest.drop 3) else none
      else if c == 'f' then
        if "alse".data.isPrefixOf rest then some (.bool false, rest.drop 4) else none
      else if c == '"' then
        (parseStrBody (rest.length + 1) rest).map (fun p => (.str p.1, p.2))
      else if c == '[' then
        match skipWsJ rest with
        | ']' :: rest2 => some (.arr [], rest2)
        | _ => (jItemsF fuel rest).map (fun p => (.arr p.1, p.2))
      else if c.toNat = 123 then
        match skipWsJ rest with
        | r :: rest2 =>
          if r.toNat = 125 then some (.obj [], rest2)
          else (jMembersF fuel rest).map (fun p => (.obj (dictify p.1), p.2))
        | [] => none
      else
        (parseIntJ s).map (fun p => (.num p.1, p.2))

/-- Parse one or more comma-separated array items and the closing `]`. -/
def jItemsF : Nat → List Char → Option (List Json × List Char)
  | 0, _ => none
  | fuel+1, s => do
    let (v, rest) ← jValF fuel s
    match skipWsJ rest with
    | ',' :: rest2 => (jItemsF fuel rest2).map (fun p => (v :: p.1, p.2))
    | ']' :: rest2 => some ([v], rest2)
    | _ => none

/-- Parse one or more comma-separated object members and the closing
brace. -/
def jMembersF : Nat → List Char → Option (List (List Char × Json) × List Char)
  | 0, _ => none
  | fuel+1, s =>
    match skipWsJ s with
    | '"' :: rest => do
      let (k, rest2) ← parseStrBody (rest.length + 1) rest
      match skipWsJ rest2 with
      | ':' :: rest3 => do
        let (v, rest4) ← jValF fuel rest3
        match skipWsJ rest4 with
        | ',' :: rest5 =>
          (jMembersF fuel rest5).map (fun p => ((k, v) :: p.1, p.2))
        | r :: rest5 => if r.toNat = 125 then some ([(k, v)], rest5) else none
        | [] => none
      | _ => none
    | _ => none

end

/-- `json.loads`: parse a complete JSON document (surrounding whitespace
allowed, nothing else). -/
def loads (s : List Char) : Option Json :=
  match jValF (s.length + 1) s with
  | some (j, rest) => if skipWsJ rest = [] then some j else none
  | none => none

/-! ## ScriptRunner (src/capibara/utils/runner.py) -/

/-- Steps of a `run` call that have externally visible effects, recorded
in order: security validation, dependency installation, spawning the
script subprocess, invoking the generator, writing the artifact files. -/
inductive RunEvent where
  | validate : RunEvent
  | installDeps : RunEvent
  | spawn : RunEvent
  | generateScript : RunEvent
  | saveArtifacts : RunEvent
deriving DecidableEq

/-- Outcome of the script subprocess (external to the repository). -/
inductive ProcOutcome where
  | completed (stdout stderr : List Char) : ProcOutcome
  | timedOut : ProcOutcome
  | raised (msg : List Char) : ProcOutcome

/-- The line parsed by `_execute_script`:
`result.stdout.strip().split("\n")[-1]`. -/
def lastLineCode (stdout : List Char) : List Char :=
  ((stripWs stdout).splitOn '\n').getLastD []

/-- The requested keys in first-occurrence order (the key set of a dict
comprehension over a possibly repeating key sequence). -/
def firstDedup (l : List (List Char)) : List (List Char) :=
  l.foldl (fun acc k => if acc.contains k then acc else acc ++ [k]) []

/-- `ScriptRunner._execute_script` from the point where `subprocess.run`
has returned: parse the last line of stripped stdout as JSON; fall back to
a raw-output result if stdout is non-empty but unparsable; report an error
if stdout is empty; timeouts and other exceptions give error results. -/
def _execute_script (po : ProcOutcome) : Json :=
  match po with
  | .timedOut => Json.obj [("status".data, .str "error".data),
      ("message".data, .str "Script execution timed out".data)]
  | .raised msg => Json.obj [("status".data, .str "error".data),
      ("message".data, .str ("Execution error: ".data ++ msg))]
  | .completed stdout stderr =>
    if stdout ≠ [] then
      match loads (lastLineCode stdout) with
      | some j => j
      | none => Json.obj [("status".data, .str "ok".data),
          ("artifacts".data, .arr []),
          ("output".data, .obj [("raw_output".data, .str stdout)]),
          ("raw".data, .obj [("stdout".data, .str stdout), ("stderr".data, .str stderr)])]
    else Json.obj [("status".data, .str "error".data),
      ("message".data, .str "No output from script".data),
      ("raw".data, .obj [("stdout".data, .str stdout), ("stderr".data, .str stderr)])]

/-- `ScriptRunner.run_script`.  Data that crosses the repository boundary
is a parameter: `script` is the content of the script file (`none` models
an unreadable file, whose exception the broad `except` catches), `parsed`
the `ast.parse` outcome, `install` a dependency-installation failure
message (`none` = success; consulted only when `deps` is non-empty), `po`
the subprocess outcome.  The second component records which steps ran. -/
def run_script (script : Option (List Char))
    (parsed : Except (List Char) (List (List Char))) (m : Manifest)
    (install : Option (List Char)) (po : ProcOutcome) :
    (Bool × Json × List Char) × List RunEvent :=
  match script with
  | none =>
    ((false, Json.obj [("status".data, .str "error".data),
        ("message".data, .str ("Execution failed: ".data ++ "script file not readable".data))],
      "script file not readable".data), [])
  | some sc =>
    let errs := validate_script sc parsed m
    if errs ≠ [] then
      ((false, Json.obj [("status".data, .str "error".data),
          ("message".data, .str "Security validation failed".data),
          ("errors".data, .arr (errs.map .str))], []), [.validate])
    else
      match (if m.deps ≠ [] then install else none) with
      | some e =>
        ((false, Json.obj [("status".data, .str "error".data),
            ("message".data, .str ("Execution failed: ".data ++ e))], e),
          [.validate, .installDeps])
      | none =>
        ((true, _execute_script po, []),
          [.validate] ++ (if m.deps ≠ [] then [.installDeps] else []) ++ [.spawn])

/-! ## SDK client (src/capibara/sdk/client.py) -/

/-- `GenerationResponse` (core/models.py), as consumed by the client. -/
structure GenResponse where
  status : List Char
  script : List Char
  manifest : Manifest
  requirements : List Char
  readme : List Char
  error : Option (List Char)

/-- The on-disk cache entry for the request's fingerprint: whether the
directory exists, the raw content of `manifest.json` (if the file exists),
and the content of the entry script file (if readable). -/
structure CacheState where
  dirExists : Bool
  manifestFile : Option (List Char)
  scriptFile : Option (List Char)

/-- Python dict lookup (`d.get(k)` / `d[k]`). -/
def jLookup (kvs : List (List Char × Json)) (k : List Char) : Option Json :=
  match kvs.find? (fun kv => kv.1 == k) with
  | some kv => some kv.2
  | none => none

/-- Python truthiness of a JSON value. -/
def jTruthy : Json → Bool
  | .null => false
  | .bool b => b
  | .num n => !(n == 0)
  | .str s => !s.isEmpty
  | .arr xs => !xs.isEmpty
  | .obj kvs => !kvs.isEmpty

/-- Extract the manifest fields the client and runner read from the
parsed `manifest.json` (`manifest["entry"]` raises — and the exception is
caught — when the key is missing or the document is not an object). -/
def manifestOfJson : Json → Option Manifest
  | .obj kvs =>
    match jLookup kvs "entry".data with
    | some (.str e) =>
      some { entry := e
             deps := (match jLookup kvs "deps".data with
                      | some (.arr ds) =>
                        ds.filterMap (fun d => match d with | .str s => some s | _ => none)
                      | _ => [])
             network := (match jLookup kvs "allow".data with
                         | some (.obj akvs) =>
                           (match jLookup akvs "network".data with
                            | some (.bool b) => b
                            | _ => false)
                         | _ => false)
             fs := (match jLookup kvs "allow".data with
                    | some (.obj akvs) =>
                      (match jLookup akvs "fs".data with
                       | some (.arr fss) =>
                         fss.filterMap (fun d => match d with | .str s => some s | _ => none)
                       | _ => [])
                    | _ => []) }
    | _ => none
  | _ => none

/-- The dict comprehension `\x7bkey: result["output"].get(key) for key in
select\x7d` (client.py lines 97 and 165): the projection of the output
mapping onto the selected keys; a missing key maps to `null`. -/
def projOutput (sel : List (List Char)) (okvs : List (List Char × Json)) :
    List (List Char × Json) :=
  sel.foldl (fun acc k => dictInsert acc k ((jLookup okvs k).getD .null)) []

/-- Lines 96-98 / 164-166 of client.py:
`if select and result.get("output"): result["output"] = filtered_output`.
Returns `none` on the exception path (a truthy `output` that is not a
mapping does not support the comprehension and raises). -/
def applySelect (select : Option (List (List Char)))
    (rkvs : List (List Char × Json)) : Option (List (List Char × Json)) :=
  match select with
  | none => some rkvs
  | some sel =>
    if sel ≠ [] ∧ ((jLookup rkvs "output".data).map jTruthy).getD false = true then
      match jLookup rkvs "output".data with
      | some (.obj okvs) => some (dictInsert rkvs "output".data (.obj (projOutput sel okvs)))
      | _ => none
    else some rkvs

/-- The error-result dict built by the client on failure paths. -/
def errResult (msg : List Char) (errRaw : Json) : Json :=
  Json.obj [("status".data, .str "error".data), ("message".data, .str msg),
    ("artifacts".data, .arr []), ("output".data, .obj []),
    ("raw".data, .obj [("error".data, errRaw)])]

/-- Common tail of both client paths after `run_script` returns: surface a
failed run as an error result, otherwise apply the field selection.
`failPfx` is the message prefix of the surrounding `except` handler. -/
def postRun (failPfx : List Char) (select : Option (List (List Char)))
    (r : (Bool × Json × List Char) × List RunEvent) : Json × List RunEvent :=
  let succ := r.1.1
  let result := r.1.2.1
  let err := r.1.2.2
  if !succ then
    (Json.obj [("status".data, .str "error".data),
      ("message".data, (match result with
        | .obj rk => (jLookup rk "message".data).getD (.str "Script execution failed".data)
        | _ => .str "Script execution failed".data)),
      ("artifacts".data, .arr []), ("output".data, .obj []),
      ("raw".data, .obj [("error".data, .str err)])], r.2)
  else
    match result with
    | .obj rkvs =>
      match applySelect select rkvs with
      | some rkvs2 => (.obj rkvs2, r.2)
      | none => (errResult (failPfx ++ "attribute error".data) (.str "attribute error".data), r.2)
    | _ => (errResult (failPfx ++ "attribute error".data) (.str "attribute error".data), r.2)

/-- `Capibara._run_cached_script`: load and parse `manifest.json`, run the
cached script, surface failures; every caught exception yields an error
result with message `Failed to run cached script: ...` (exception texts of
the Python standard library are modelled by short stand-ins). -/
def _run_cached_script (cs : CacheState)
    (parsed : Except (List Char) (List (List Char)))
    (install : Option (List Char)) (po : ProcOutcome)
    (select : Option (List (List Char))) : Json × List RunEvent :=
  let pfx := "Failed to run cached script: ".data
  match cs.manifestFile with
  | none => (errResult (pfx ++ "Manifest not found".data) (.str "Manifest not found".data), [])
  | some raw =>
    match loads raw with
    | none => (errResult (pfx ++ "manifest JSON decode error".data)
        (.str "manifest JSON decode error".data), [])
    | some mj =>
      match manifestOfJson mj with
      | none => (errResult (pfx ++ "manifest field missing".data)
          (.str "manifest field missing".data), [])
      | some m =>
        postRun pfx select (run_script cs.scriptFile parsed m install po)

/-- `Capibara._generate_and_run_script`: invoke the generator; on failure
return its error without touching the cache; on success write the
artifacts and run the freshly stored script. -/
def _generate_and_run_script (resp : GenResponse)
    (parsed : Except (List Char) (List (List Char)))
    (install : Option (List Char)) (po : ProcOutcome)
    (select : Option (List (List Char))) : Json × List RunEvent :=
  if resp.status ≠ "ok".data then
    (errResult (resp.error.getD "Script generation failed".data)
      (match resp.error with | some e => .str e | none => .null), [.generateScript])
  else
    let r := run_script (some resp.script) parsed resp.manifest install po
    let out := postRun "Failed to generate and run script: ".data select r
    (out.1, [.generateScript, .saveArtifacts] ++ out.2)

/-- `Capibara.run` for one request: compute the fingerprint (the cache
state `cs` is the state at that fingerprint), take the cached path when
`refresh` is false and both the fingerprint directory and its
`manifest.json` exist, otherwise generate. -/
def run (refresh : Bool) (cs : CacheState) (resp : GenResponse)
    (parsed : Except (List Char) (List (List Char)))
    (install : Option (List Char)) (po : ProcOutcome)
    (select : Option (List (List Char))) : Json × List RunEvent :=
  if !refresh && cs.dirExists && cs.manifestFile.isSome then
    _run_cached_script cs parsed install po select
  else
    _generate_and_run_script resp parsed install po select

/-! ## Lemmas -/

theorem flatten_consHead (c : Char) (xs : List (List Char)) :
    (consHead c xs).flatten = c :: xs.flatten := by
  cases xs <;> simp [consHead]

theorem flatten_splitRemF (fuel : Nat) (pat : List Char) :
    ∀ s, (splitRemF fuel pat s).flatten = removeAllF fuel pat s := by
  induction fuel with
  | zero => intro s; simp [splitRemF, removeAllF]
  | succ f ih =>
    intro s
    cases s with
    | nil => simp [splitRemF, removeAllF]
    | cons c rest =>
      by_cases h : (!pat.isEmpty && pat.isPrefixOf (c :: rest)) = true
      · simp [splitRemF, removeAllF, h, ih]
      · simp [splitRemF, removeAllF, h, flatten_consHead, ih]

theorem removeOccurrences_eq_removeAll (pat s : List Char) :
    removeOccurrences pat s = removeAll pat s := by
  simp [removeOccurrences, removeAll, flatten_splitRemF]

theorem orderedInsert_mapSnd {α β : Type} (f : α → β) (k : List Char) (v : α)
    (l : List (List Char × α)) :
    List.orderedInsert keyLe (k, f v) (mapSnd f l) =
      mapSnd f (List.orderedInsert keyLe (k, v) l) := by
  induction l with
  | nil => simp [mapSnd]
  | cons b l ih =>
    simp only [mapSnd, List.map_cons, List.orderedInsert]
    by_cases h : keyLe ((k, v) : List Char × α) b
    · have h2 : keyLe ((k, f v) : List Char × β) (b.1, f b.2) := h
      rw [if_pos h, if_pos h2]
      simp [mapSnd]
    · have h2 : ¬ keyLe ((k, f v) : List Char × β) (b.1, f b.2) := h
      rw [if_neg h, if_neg h2]
      simp only [mapSnd, List.map_cons] at ih ⊢
      rw [ih]

theorem sortPairs_mapSnd {α β : Type} (f : α → β) (l : List (List Char × α)) :
    sortPairs (mapSnd f l) = mapSnd f (sortPairs l) := by
  induction l with
  | nil => rfl
  | cons b l ih =>
    simp only [sortPairs, mapSnd, List.map_cons, List.insertionSort] at ih ⊢
    rw [ih]
    have := orderedInsert_mapSnd f b.1 b.2 (List.insertionSort keyLe l)
    simpa [sortPairs, mapSnd] using this

theorem dumpsList_eq_map (xs : List Json) : dumpsList xs = xs.map dumps := by
  induction xs with
  | nil => rfl
  | cons x xs ih => simp [dumpsList, ih]

theorem dumpsKVs_eq_mapSnd (kvs : List (List Char × Json)) :
    dumpsKVs kvs = mapSnd dumps kvs := by
  induction kvs with
  | nil => rfl
  | cons kv kvs ih => simp [dumpsKVs, mapSnd, ih]

/-- Induction principle for `Json` that recurses into array elements and
object values. -/
theorem jsonInduction (motive : Json → Prop)
    (hnull : motive .null) (hbool : ∀ b, motive (.bool b)) (hnum : ∀ n, motive (.num n))
    (hstr : ∀ s, motive (.str s))
    (harr : ∀ xs, (∀ x ∈ xs, motive x) → motive (.arr xs))
    (hobj : ∀ kvs, (∀ kv ∈ kvs, motive kv.2) → motive (.obj kvs)) :
    ∀ j, motive j
  | .null => hnull
  | .bool b => hbool b
  | .num n => hnum n
  | .str s => hstr s
  | .arr xs => harr xs (fun x hx =>
      jsonInduction motive hnull hbool hnum hstr harr hobj x)
  | .obj kvs => hobj kvs (fun kv hkv =>
      jsonInduction motive hnull hbool hnum hstr harr hobj kv.2)
termination_by j => sizeOf j
decreasing_by
  · have := List.sizeOf_lt_of_mem hx
    simp only [Json.arr.sizeOf_spec]
    omega
  · have h1 := List.sizeOf_lt_of_mem hkv
    have h2 : sizeOf kv.2 < sizeOf kv := by
      obtain ⟨k, v⟩ := kv
      simp only [Prod.mk.sizeOf_spec]
      omega
    simp only [Json.obj.sizeOf_spec]
    omega

theorem dumps_eq_dumpsSpec : ∀ j, dumps j = dumpsSpec j := by
  refine jsonInduction _ (by rw [dumps, dumpsSpec]) (fun b => by rw [dumps, dumpsSpec])
    (fun n => by rw [dumps, dumpsSpec]) (fun s => by rw [dumps, dumpsSpec]) ?_ ?_
  · intro xs ih
    rw [dumps, dumpsSpec]
    rw [dumpsList_eq_map]
    have : xs.attach.map (fun x => dumpsSpec x.1) = xs.map dumpsSpec :=
      List.attach_map_val xs dumpsSpec
    rw [this]
    exact congrArg (fun t => '[' :: joinComma t ++ [']']) (List.map_congr_left ih)
  · intro kvs ih
    rw [dumps, dumpsSpec]
    rw [dumpsKVs_eq_mapSnd, sortPairs_mapSnd]
    have h1 : (sortPairs kvs).attach.map (fun kv => renderStr kv.1.1 ++ ':' :: dumpsSpec kv.1.2) =
        (sortPairs kvs).map (fun kv => renderStr kv.1 ++ ':' :: dumpsSpec kv.2) :=
      List.attach_map_val (sortPairs kvs) (fun kv => renderStr kv.1 ++ ':' :: dumpsSpec kv.2)
    rw [h1]
    have h2 : renderKVs (mapSnd dumps (sortPairs kvs)) =
        (sortPairs kvs).map (fun kv => renderStr kv.1 ++ ':' :: dumps kv.2) := by
      simp [renderKVs, mapSnd, List.map_map, Function.comp]
    rw [h2]
    have h3 : ∀ kv ∈ sortPairs kvs, (renderStr kv.1 ++ ':' :: dumps kv.2) =
        (renderStr kv.1 ++ ':' :: dumpsSpec kv.2) := by
      intro kv hkv
      have hmem : kv ∈ kvs := (List.perm_insertionSort keyLe kvs).mem_iff.mp hkv
      rw [ih kv hmem]
    exact congrArg (fun t => openBrace ++ joinComma t ++ closeBrace) (List.map_congr_left h3)

/-! Lemmas about whitespace collapsing, trimming and word splitting. -/

theorem dropWhile_eq_self_of (p : Char → Bool) (l : List Char) (h : ∀ x ∈ l, p x = false) :
    l.dropWhile p = l := by
  cases l with
  | nil => rfl
  | cons c rest => simp [List.dropWhile_cons, h c (by simp)]

theorem stripWs_cons_ws (c : Char) (x : List Char) (hc : isWs c = true) :
    stripWs (c :: x) = stripWs x := by
  simp [stripWs, List.dropWhile_cons, hc]

theorem collapseWs_cons_notWs (c : Char) (rest : List Char) (hc : isWs c = false) :
    collapseWs (c :: rest) = c :: collapseWs rest := by
  cases rest <;> simp [collapseWs, hc]

theorem stripCollapse_cons_ws (c : Char) (rest : List Char) (hc : isWs c = true) :
    stripWs (collapseWs (c :: rest)) = stripWs (collapseWs rest) := by
  cases rest with
  | nil =>
    have h1 : collapseWs [c] = [' '] := by simp [collapseWs, hc]
    rw [h1]
    decide
  | cons d s2 =>
    by_cases hd : isWs d
    · simp [collapseWs, hc, hd]
    · have hd' : isWs d = false := by simpa using hd
      have h1 : collapseWs (c :: d :: s2) = ' ' :: collapseWs (d :: s2) := by
        simp [collapseWs, hc, hd']
      rw [h1, stripWs_cons_ws ' ' _ (by decide)]

theorem stripWs_eq_dropTrailing_of_head (c : Char) (t : List Char) (hc : isWs c = false) :
    stripWs (c :: t) = dropTrailingWs (c :: t) := by
  simp [stripWs, dropTrailingWs, List.dropWhile_cons, hc]

theorem dropTrailingWs_append_word (a y : List Char) (hall : ∀ x ∈ a, isWs x = false) :
    dropTrailingWs (a ++ y) = a ++ dropTrailingWs y := by
  unfold dropTrailingWs
  rw [List.reverse_append, List.dropWhile_append]
  by_cases h : (y.reverse.dropWhile isWs).isEmpty
  · rw [if_pos h]
    have h2 : y.reverse.dropWhile isWs = [] := List.isEmpty_iff.mp h
    rw [h2, dropWhile_eq_self_of isWs a.reverse (fun x hx => hall x (List.mem_reverse.mp hx))]
    simp
  · rw [if_neg h]
    simp

theorem dropTrailingWs_cons_notWs (x : Char) (z : List Char) (hx : isWs x = false) :
    dropTrailingWs (x :: z) = x :: dropTrailingWs z := by
  have h := dropTrailingWs_append_word [x] z (by intro y hy; simp at hy; subst hy; exact hx)
  simpa using h

theorem dropTrailingWs_ws_cons (c : Char) (hc : isWs c = true) (y : List Char) :
    dropTrailingWs (c :: y) =
      if dropTrailingWs y = [] then [] else c :: dropTrailingWs y := by
  unfold dropTrailingWs
  rw [List.reverse_cons, List.dropWhile_append]
  by_cases h : (y.reverse.dropWhile isWs).isEmpty
  · rw [if_pos h]
    have h2 : y.reverse.dropWhile isWs = [] := List.isEmpty_iff.mp h
    simp [h2, List.dropWhile_cons, hc]
  · rw [if_neg h]
    have h2 : y.reverse.dropWhile isWs ≠ [] := by
      intro h3
      rw [h3] at h
      exact h rfl
    have h3 : (y.reverse.dropWhile isWs).reverse ≠ [] := by
      simpa using h2
    rw [if_neg h3]
    simp

theorem collapseWs_all_ws (s : List Char) (hns : s ≠ []) (hall : ∀ x ∈ s, isWs x = true) :
    collapseWs s = [' '] := by
  induction s with
  | nil => cases hns rfl
  | cons c rest ih =>
    have hc := hall c (by simp)
    cases rest with
    | nil => simp [collapseWs, hc]
    | cons d s2 =>
      have hd := hall d (by simp)
      have h1 : collapseWs (c :: d :: s2) = collapseWs (d :: s2) := by
        simp [collapseWs, hc, hd]
      rw [h1]
      exact ih (by simp) (fun x hx => hall x (by simp [hx]))

theorem collapseWs_append_word (a b : List Char) (ha : a ≠ [])
    (hall : ∀ x ∈ a, isWs x = false) : collapseWs (a ++ b) = a ++ collapseWs b := by
  induction a with
  | nil => cases ha rfl
  | cons x a2 ih =>
    have hx : isWs x = false := hall x (by simp)
    cases a2 with
    | nil => simpa using collapseWs_cons_notWs x b hx
    | cons y a3 =>
      have h1 := ih (by simp) (fun z hz => hall z (by simp [List.mem_cons.mp hz]))
      simp only [List.cons_append]
      rw [collapseWs_cons_notWs x _ hx]
      simp only [List.cons_append] at h1
      rw [h1]

theorem collapseWs_run_word (run : List Char) (hne : run ≠ [])
    (hall : ∀ x ∈ run, isWs x = true) (e : Char) (he : isWs e = false) (r4 : List Char) :
    collapseWs (run ++ e :: r4) = ' ' :: collapseWs (e :: r4) := by
  induction run with
  | nil => cases hne rfl
  | cons c run2 ih =>
    have hc := hall c (by simp)
    cases run2 with
    | nil => simp [collapseWs, hc, he]
    | cons y run3 =>
      have hy := hall y (by simp)
      have h1 : collapseWs (c :: y :: (run3 ++ e :: r4)) = collapseWs (y :: (run3 ++ e :: r4)) := by
        simp [collapseWs, hc, hy]
      simp only [List.cons_append] at h1 ⊢
      rw [h1]
      have h2 := ih (by simp) (fun x hx => hall x (by simp [List.mem_cons.mp hx]))
      simpa using h2

theorem dropWhile_head_false (p : Char → Bool) (l : List Char) (c : Char) (t : List Char)
    (h : l.dropWhile p = c :: t) : p c = false := by
  induction l with
  | nil => simp at h
  | cons a l ih =>
    rw [List.dropWhile_cons] at h
    by_cases ha : p a = true
    · rw [if_pos ha] at h
      exact ih h
    · rw [if_neg ha] at h
      have hac : a = c := (List.cons.injEq a l c t ▸ h).1
      subst hac
      simpa using ha

theorem wordsGo_cons_ws (c : Char) (rest : List Char) (hc : isWs c = true) :
    wordsGo (c :: rest) = ([], wordsWs rest) := by
  rw [wordsGo, if_pos hc, wordsWs]

theorem wordsGo_cons_notWs (c : Char) (rest : List Char) (hc : isWs c = false) :
    wordsGo (c :: rest) = (c :: (wordsGo rest).1, (wordsGo rest).2) := by
  rw [wordsGo, if_neg (by simp [hc])]

theorem wordsWs_cons_ws (c : Char) (rest : List Char) (hc : isWs c = true) :
    wordsWs (c :: rest) = wordsWs rest := by
  rw [wordsWs, wordsGo_cons_ws c rest hc]
  simp

theorem wordsGo_fst (s : List Char) : (wordsGo s).1 = s.takeWhile notWs := by
  induction s with
  | nil => rfl
  | cons c rest ih =>
    by_cases hc : isWs c = true
    · rw [wordsGo_cons_ws c rest hc]
      simp [List.takeWhile_cons, notWs, hc]
    · have hc' : isWs c = false := by simpa using hc
      rw [wordsGo_cons_notWs c rest hc']
      simp [List.takeWhile_cons, notWs, hc', ih]

theorem wordsGo_snd (s : List Char) : (wordsGo s).2 = wordsWs (s.dropWhile notWs) := by
  induction s with
  | nil => rfl
  | cons c rest ih =>
    by_cases hc : isWs c = true
    · rw [wordsGo_cons_ws c rest hc]
      have hdw : (c :: rest).dropWhile notWs = c :: rest := by
        simp [List.dropWhile_cons, notWs, hc]
      rw [hdw, wordsWs_cons_ws c rest hc]
    · have hc' : isWs c = false := by simpa using hc
      rw [wordsGo_cons_notWs c rest hc']
      have hdw : (c :: rest).dropWhile notWs = rest.dropWhile notWs := by
        simp [List.dropWhile_cons, notWs, hc']
      rw [hdw]
      exact ih

theorem wordsWs_cons_notWs (c : Char) (rest : List Char) (hc : isWs c = false) :
    wordsWs (c :: rest) =
      (c :: rest.takeWhile notWs) :: wordsWs (rest.dropWhile notWs) := by
  rw [wordsWs, wordsGo_cons_notWs c rest hc]
  simp [wordsGo_fst, wordsGo_snd]

theorem wordsWs_all_ws (s : List Char) (h : wordsWs s = []) : ∀ x ∈ s, isWs x = true := by
  induction s with
  | nil => simp
  | cons c rest ih =>
    by_cases hc : isWs c
    · rw [wordsWs_cons_ws c rest hc] at h
      intro x hx
      rcases List.mem_cons.mp hx with rfl | hx2
      · exact hc
      · exact ih h x hx2
    · rw [wordsWs_cons_notWs c rest (by simpa using hc)] at h
      exact absurd h (by simp)

theorem wordsWs_of_all_ws (s : List Char) (h : ∀ x ∈ s, isWs x = true) : wordsWs s = [] := by
  induction s with
  | nil => rfl
  | cons c rest ih =>
    rw [wordsWs_cons_ws c rest (h c (by simp))]
    exact ih (fun x hx => h x (by simp [hx]))

theorem wordsWs_ws_run_append (run : List Char) (hall : ∀ x ∈ run, isWs x = true)
    (t : List Char) : wordsWs (run ++ t) = wordsWs t := by
  induction run with
  | nil => rfl
  | cons c run2 ih =>
    rw [List.cons_append, wordsWs_cons_ws c _ (hall c (by simp))]
    exact ih (fun x hx => hall x (by simp [hx]))

theorem intercalate_cons₂ (sep a b : List Char) (l : List (List Char)) :
    List.intercalate sep (a :: b :: l) = a ++ sep ++ List.intercalate sep (b :: l) := by
  simp [List.intercalate, List.intersperse]

theorem intercalate_single (sep a : List Char) : List.intercalate sep [a] = a := by
  simp [List.intercalate, List.intersperse]

/-- Whitespace-run collapsing followed by trimming equals splitting into
whitespace-separated words and rejoining with single spaces (length-bounded
helper for the induction). -/
theorem stripCollapseAux :
    ∀ (n : Nat) (s : List Char), s.length ≤ n →
      stripWs (collapseWs s) = List.intercalate [' '] (wordsWs s) := by
  intro n
  induction n with
  | zero =>
    intro s hs
    have hnil : s = [] := List.length_eq_zero.mp (Nat.le_zero.mp hs)
    subst hnil
    decide
  | succ n ih =>
  intro s hn
  cases s with
  | nil => decide
  | cons c rest =>
    have hlen : rest.length ≤ n := by
      simp only [List.length_cons] at hn
      omega
    by_cases hc : isWs c
    · rw [stripCollapse_cons_ws c rest hc, wordsWs_cons_ws c rest hc]
      exact ih rest hlen
    · have hc' : isWs c = false := by simpa using hc
      have hw : ∀ x ∈ (c :: rest.takeWhile notWs), isWs x = false := by
        intro x hx
        rcases List.mem_cons.mp hx with rfl | hx2
        · exact hc'
        · have h3 := List.mem_takeWhile_imp hx2
          simpa [notWs] using h3
      have h1 : collapseWs (c :: rest) =
          (c :: rest.takeWhile notWs) ++ collapseWs (rest.dropWhile notWs) := by
        have h2 := collapseWs_append_word (c :: rest.takeWhile notWs)
          (rest.dropWhile notWs) (by simp) hw
        rw [List.cons_append, List.takeWhile_append_dropWhile] at h2
        exact h2
      have h2 : stripWs (collapseWs (c :: rest)) =
          (c :: rest.takeWhile notWs) ++ dropTrailingWs (collapseWs (rest.dropWhile notWs)) := by
        rw [h1, List.cons_append, stripWs_eq_dropTrailing_of_head c _ hc']
        have h3 := dropTrailingWs_append_word (c :: rest.takeWhile notWs)
          (collapseWs (rest.dropWhile notWs)) hw
        rw [List.cons_append] at h3
        exact h3
      rw [h2, wordsWs_cons_notWs c rest hc']
      by_cases hcase : wordsWs (rest.dropWhile notWs) = []
      · have hallws := wordsWs_all_ws _ hcase
        have hdt : dropTrailingWs (collapseWs (rest.dropWhile notWs)) = [] := by
          cases hr : rest.dropWhile notWs with
          | nil => decide
          | cons d r2 =>
            have hcol : collapseWs (rest.dropWhile notWs) = [' '] :=
              collapseWs_all_ws _ (by rw [hr]; simp) hallws
            rw [hr] at hcol
            rw [hcol]
            decide
        rw [hdt, hcase, intercalate_single]
        simp
      · obtain ⟨d, r2, hr⟩ : ∃ d r2, rest.dropWhile notWs = d :: r2 := by
          cases hr0 : rest.dropWhile notWs with
          | nil => exact absurd (by rw [hr0]; rfl) hcase
          | cons d r2 => exact ⟨d, r2, rfl⟩
        obtain ⟨e, r4, hr3⟩ : ∃ e r4, (rest.dropWhile notWs).dropWhile isWs = e :: r4 := by
          cases hr3 : (rest.dropWhile notWs).dropWhile isWs with
          | nil =>
            have hall2 : ∀ x ∈ rest.dropWhile notWs, isWs x = true := by
              intro x hx
              have h4 := List.dropWhile_eq_nil_iff.mp hr3 x hx
              exact h4
            exact absurd (wordsWs_of_all_ws _ hall2) hcase
          | cons e r4 => exact ⟨e, r4, rfl⟩
        have he : isWs e = false := dropWhile_head_false isWs _ e r4 hr3
        have hsplit : rest.dropWhile notWs =
            ((rest.dropWhile notWs).takeWhile isWs) ++ e :: r4 := by
          conv_lhs => rw [← List.takeWhile_append_dropWhile isWs (rest.dropWhile notWs)]
          rw [hr3]
        have hrun_ne : (rest.dropWhile notWs).takeWhile isWs ≠ [] := by
          have hd : isWs d = true := by
            have h5 := dropWhile_head_false notWs rest d r2 hr
            simpa [notWs] using h5
          rw [hr]
          simp [List.takeWhile_cons, hd]
        have hrun_ws : ∀ x ∈ (rest.dropWhile notWs).takeWhile isWs, isWs x = true :=
          fun x hx => List.mem_takeWhile_imp hx
        have hcol : collapseWs (rest.dropWhile notWs) = ' ' :: collapseWs (e :: r4) := by
          conv_lhs => rw [hsplit]
          exact collapseWs_run_word _ hrun_ne hrun_ws e he r4
        have hcol2 : collapseWs (e :: r4) = e :: collapseWs r4 := collapseWs_cons_notWs e r4 he
        have hdt_ne : dropTrailingWs (collapseWs (e :: r4)) ≠ [] := by
          rw [hcol2, dropTrailingWs_cons_notWs e _ he]
          simp
        have hdt : dropTrailingWs (collapseWs (rest.dropWhile notWs)) =
            ' ' :: dropTrailingWs (collapseWs (e :: r4)) := by
          rw [hcol, dropTrailingWs_ws_cons ' ' (by decide) _, if_neg hdt_ne]
        have hstrip : dropTrailingWs (collapseWs (e :: r4)) = stripWs (collapseWs (e :: r4)) := by
          rw [hcol2, ← stripWs_eq_dropTrailing_of_head e _ he]
        have hlen2 : (e :: r4).length ≤ n := by
          have ha : ((rest.dropWhile notWs).dropWhile isWs).length ≤
              (rest.dropWhile notWs).length :=
            List.Sublist.length_le (List.dropWhile_sublist isWs)
          have hb : (rest.dropWhile notWs).length ≤ rest.length :=
            List.Sublist.length_le (List.dropWhile_sublist notWs)
          rw [hr3] at ha
          simp only [List.length_cons] at ha hn ⊢
          omega
        have hih := ih (e :: r4) hlen2
        have hwr : wordsWs (rest.dropWhile notWs) = wordsWs (e :: r4) := by
          conv_lhs => rw [hsplit]
          exact wordsWs_ws_run_append _ hrun_ws _
        obtain ⟨w2, L2, hW⟩ : ∃ w2 L2, wordsWs (e :: r4) = w2 :: L2 :=
          ⟨_, _, wordsWs_cons_notWs e r4 he⟩
        rw [hdt, hstrip, hih, hwr, hW, intercalate_cons₂]
        simp

/-- Whitespace-run collapsing followed by trimming equals splitting into
whitespace-separated words and rejoining with single spaces. -/
theorem stripCollapse_eq_words (s : List Char) :
    stripWs (collapseWs s) = List.intercalate [' '] (wordsWs s) :=
  stripCollapseAux s.length s le_rfl

/-! Lemmas for prompt-normalization idempotence (claim C8). -/

theorem removeAllF_mem_of (fuel : Nat) (pat : List Char) :
    ∀ s c, c ∈ removeAllF fuel pat s → c ∈ s := by
  induction fuel with
  | zero =>
    intro s c h
    simpa [removeAllF] using h
  | succ f ih =>
    intro s c h
    cases s with
    | nil => simpa [removeAllF] using h
    | cons a rest =>
      simp only [removeAllF] at h
      by_cases hp : (!pat.isEmpty && pat.isPrefixOf (a :: rest)) = true
      · rw [if_pos hp] at h
        have h2 := ih _ c h
        exact List.mem_cons_of_mem a (List.drop_subset _ rest h2)
      · rw [if_neg hp] at h
        rcases List.mem_cons.mp h with rfl | h2
        · exact List.mem_cons_self c rest
        · exact List.mem_cons_of_mem a (ih rest c h2)

theorem removeAllF_id_of_no_occ (fuel : Nat) (pat : List Char) :
    ∀ s, ¬ pat <:+: s → removeAllF fuel pat s = s := by
  induction fuel with
  | zero => intro s _; cases s <;> simp [removeAllF]
  | succ f ih =>
    intro s hno
    cases s with
    | nil => rfl
    | cons a rest =>
      simp only [removeAllF]
      have hp : ¬ ((!pat.isEmpty && pat.isPrefixOf (a :: rest)) = true) := by
        intro hp
        have h2 : pat.isPrefixOf (a :: rest) = true := by
          have h6 := hp
          simp only [Bool.and_eq_true] at h6
          exact h6.2
        have h3 : pat <+: (a :: rest) := by simpa using h2
        exact hno h3.isInfix
      rw [if_neg hp]
      have h4 : ¬ pat <:+: rest := fun h5 => hno (List.infix_cons h5)
      rw [ih rest h4]

theorem removeAll_id_of_no_occ (pat s : List Char) (h : ¬ pat <:+: s) :
    removeAll pat s = s :=
  removeAllF_id_of_no_occ s.length pat s h

theorem foldl_removeAll_id (l : List (List Char)) (s : List Char)
    (h : ∀ sw ∈ l, ¬ sw <:+: s) :
    l.foldl (fun acc sw => removeAll sw acc) s = s := by
  induction l with
  | nil => rfl
  | cons sw l ih =>
    rw [List.foldl_cons, removeAll_id_of_no_occ sw s (h sw (by simp))]
    exact ih (fun x hx => h x (by simp [hx]))

theorem foldl_removeAll_mem (l : List (List Char)) :
    ∀ (s : List Char), ∀ c ∈ l.foldl (fun acc sw => removeAll sw acc) s, c ∈ s := by
  induction l with
  | nil => intro s c hc; simpa using hc
  | cons sw l ih =>
    intro s c hc
    rw [List.foldl_cons] at hc
    exact removeAllF_mem_of _ sw s c (ih (removeAll sw s) c hc)

theorem collapseWs_mem (t : List Char) : ∀ c ∈ collapseWs t, c = ' ' ∨ c ∈ t := by
  induction t using collapseWs.induct with
  | case1 => simp [collapseWs]
  | case2 c hc =>
    intro x hx
    simp only [collapseWs, if_pos hc] at hx
    simp at hx
    simp [hx]
  | case3 c hc =>
    intro x hx
    simp only [collapseWs, if_neg hc] at hx
    simp at hx
    simp [hx]
  | case4 c d s hc hd ih =>
    intro x hx
    simp only [collapseWs, if_pos hc, if_pos hd] at hx
    rcases ih x hx with h | h
    · exact Or.inl h
    · exact Or.inr (List.mem_cons_of_mem c h)
  | case5 c d s hc hd ih =>
    intro x hx
    simp only [collapseWs, if_pos hc, if_neg hd] at hx
    rcases List.mem_cons.mp hx with rfl | h2
    · exact Or.inl rfl
    · rcases ih x h2 with h | h
      · exact Or.inl h
      · exact Or.inr (List.mem_cons_of_mem c h)
  | case6 c d s hc ih =>
    intro x hx
    simp only [collapseWs, if_neg hc] at hx
    rcases List.mem_cons.mp hx with rfl | h2
    · exact Or.inr (List.mem_cons_self x _)
    · rcases ih x h2 with h | h
      · exact Or.inl h
      · exact Or.inr (List.mem_cons_of_mem c h)

theorem collapseWs_wsSpace (t : List Char) :
    ∀ x ∈ collapseWs t, isWs x = true → x = ' ' := by
  induction t using collapseWs.induct with
  | case1 => simp [collapseWs]
  | case2 c hc =>
    intro x hx _
    simp only [collapseWs, if_pos hc] at hx
    simpa using hx
  | case3 c hc =>
    intro x hx hxw
    simp only [collapseWs, if_neg hc] at hx
    simp at hx
    subst hx
    simp [hxw] at hc
  | case4 c d s hc hd ih =>
    intro x hx hxw
    simp only [collapseWs, if_pos hc, if_pos hd] at hx
    exact ih x hx hxw
  | case5 c d s hc hd ih =>
    intro x hx hxw
    simp only [collapseWs, if_pos hc, if_neg hd] at hx
    rcases List.mem_cons.mp hx with rfl | h2
    · rfl
    · exact ih x h2 hxw
  | case6 c d s hc ih =>
    intro x hx hxw
    simp only [collapseWs, if_neg hc] at hx
    rcases List.mem_cons.mp hx with rfl | h2
    · simp [hxw] at hc
    · exact ih x h2 hxw

theorem collapseWs_chain (t : List Char) : List.Chain' wsSep (collapseWs t) := by
  induction t using collapseWs.induct with
  | case1 => simp [collapseWs]
  | case2 c hc =>
    simp only [collapseWs, if_pos hc]
    exact List.chain'_singleton ' '
  | case3 c hc =>
    simp only [collapseWs, if_neg hc]
    exact List.chain'_singleton c
  | case4 c d s hc hd ih =>
    simpa only [collapseWs, if_pos hc, if_pos hd] using ih
  | case5 c d s hc hd ih =>
    simp only [collapseWs, if_pos hc, if_neg hd]
    rw [List.chain'_cons']
    refine ⟨?_, ih⟩
    intro y hy
    have hcol : collapseWs (d :: s) = d :: collapseWs s := collapseWs_cons_notWs d s (by simpa using hd)
    rw [hcol] at hy
    simp at hy
    subst hy
    exact Or.inr (by simpa using hd)
  | case6 c d s hc ih =>
    simp only [collapseWs, if_neg hc]
    rw [List.chain'_cons']
    refine ⟨?_, ih⟩
    intro y _
    exact Or.inl (by simpa using hc)

theorem dropTrailingWs_isPre (x : List Char) : dropTrailingWs x <+: x := by
  unfold dropTrailingWs
  have h1 : x.reverse.dropWhile isWs <:+ x.reverse := List.dropWhile_suffix isWs
  have h2 := List.reverse_prefix.mpr h1
  simpa using h2

theorem stripWs_isInf (t : List Char) : stripWs t <:+: t := by
  have h1 : stripWs t <+: t.dropWhile isWs := dropTrailingWs_isPre (t.dropWhile isWs)
  have h2 : t.dropWhile isWs <:+ t := List.dropWhile_suffix isWs
  exact h1.isInfix.trans h2.isInfix

theorem stripWs_subset (t : List Char) : ∀ c ∈ stripWs t, c ∈ t :=
  fun _ hc => (stripWs_isInf t).subset hc

theorem stripWs_head_notWs (t : List Char) (c : Char) (r : List Char)
    (h : stripWs t = c :: r) : isWs c = false := by
  have hpre : stripWs t <+: t.dropWhile isWs := dropTrailingWs_isPre (t.dropWhile isWs)
  rw [h] at hpre
  obtain ⟨u, hu⟩ := hpre
  have h2 : t.dropWhile isWs = c :: (r ++ u) := by
    rw [← hu]
    simp
  exact dropWhile_head_false isWs t c (r ++ u) h2

theorem stripWs_getLast_notWs (t : List Char) (c : Char) (r : List Char)
    (h : stripWs t = r ++ [c]) : isWs c = false := by
  have h1 : (stripWs t).reverse = c :: r.reverse := by
    rw [h]
    simp
  unfold stripWs at h1
  rw [List.reverse_reverse] at h1
  exact dropWhile_head_false isWs _ c r.reverse h1

theorem toLowerStr_eq_self (q : List Char) (h : ∀ c ∈ q, c.toLower = c) :
    toLowerStr q = q := by
  unfold toLowerStr
  have h2 : q.map Char.toLower = q.map id := List.map_congr_left (fun c hc => h c hc)
  rw [h2, List.map_id]

theorem toNat_ofNat_valid (n : Nat) (h : n.isValidChar) : (Char.ofNat n).toNat = n := by
  unfold Char.ofNat
  rw [dif_pos h]
  rfl

theorem charToLower_idem (c : Char) : c.toLower.toLower = c.toLower := by
  unfold Char.toLower
  by_cases h : c.toNat ≥ 65 ∧ c.toNat ≤ 90
  · rw [if_pos h]
    have hv : (c.toNat + 32).isValidChar := by
      left
      omega
    rw [toNat_ofNat_valid _ hv]
    rw [if_neg (by omega)]
  · rw [if_neg h, if_neg h]

theorem normalize_prompt_lowerFixed (p : List Char) :
    ∀ c ∈ normalize_prompt p, c.toLower = c := by
  intro c hc
  unfold normalize_prompt at hc
  have h1 := stripWs_subset _ c hc
  rcases collapseWs_mem _ c h1 with rfl | h2
  · decide
  · have h3 : c ∈ toLowerStr p := foldl_removeAll_mem stopwords (toLowerStr p) c h2
    obtain ⟨d, _, rfl⟩ := List.mem_map.mp h3
    exact charToLower_idem d

theorem collapseWs_eq_self (q : List Char) (hch : List.Chain' wsSep q)
    (hsp : ∀ x ∈ q, isWs x = true → x = ' ') : collapseWs q = q := by
  induction q using collapseWs.induct with
  | case1 => rfl
  | case2 c hc =>
    simp only [collapseWs, if_pos hc]
    rw [hsp c (by simp) hc]
  | case3 c hc =>
    simp only [collapseWs, if_neg hc]
  | case4 c d s hc hd _ =>
    rw [List.chain'_cons] at hch
    rcases hch.1 with h | h
    · rw [hc] at h
      simp at h
    · rw [hd] at h
      simp at h
  | case5 c d s hc hd ih =>
    simp only [collapseWs, if_pos hc, if_neg hd]
    rw [List.chain'_cons] at hch
    have h1 := ih hch.2 (fun x hx hw => hsp x (by simp [hx]) hw)
    rw [h1, hsp c (by simp) hc]
  | case6 c d s hc ih =>
    simp only [collapseWs, if_neg hc]
    rw [List.chain'_cons] at hch
    rw [ih hch.2 (fun x hx hw => hsp x (by simp [hx]) hw)]

theorem stripWs_eq_self (q : List Char)
    (hhead : ∀ c r, q = c :: r → isWs c = false)
    (hlast : ∀ c r, q = r ++ [c] → isWs c = false) : stripWs q = q := by
  have h1 : List.dropWhile isWs q = q := by
    cases q with
    | nil => rfl
    | cons c r => simp [List.dropWhile_cons, hhead c r rfl]
  have h2 : List.dropWhile isWs q.reverse = q.reverse := by
    cases hrev : q.reverse with
    | nil => rfl
    | cons d t =>
      have hq : q = t.reverse ++ [d] := by
        have h3 := congrArg List.reverse hrev
        simpa using h3
      simp [List.dropWhile_cons, hlast d t.reverse hq]
  unfold stripWs
  rw [h1, h2]
  simp

theorem normalize_prompt_chain (p q : List Char) (hq : normalize_prompt p = q) :
    List.Chain' wsSep q := by
  subst hq
  unfold normalize_prompt
  generalize (stopwords.foldl (fun acc sw => removeAll sw acc) (toLowerStr p)) = Y
  exact List.Chain'.infix (collapseWs_chain Y) (stripWs_isInf (collapseWs Y))

theorem normalize_prompt_wsSpace (p q : List Char) (hq : normalize_prompt p = q) :
    ∀ x ∈ q, isWs x = true → x = ' ' := by
  subst hq
  unfold normalize_prompt
  generalize (stopwords.foldl (fun acc sw => removeAll sw acc) (toLowerStr p)) = Y
  intro x hx hw
  exact collapseWs_wsSpace Y x (stripWs_subset _ x hx) hw

theorem normalize_prompt_head_notWs (p q : List Char) (hq : normalize_prompt p = q) :
    ∀ c r, q = c :: r → isWs c = false := by
  subst hq
  unfold normalize_prompt
  generalize (stopwords.foldl (fun acc sw => removeAll sw acc) (toLowerStr p)) = Y
  intro c r hq2
  exact stripWs_head_notWs (collapseWs Y) c r hq2

theorem normalize_prompt_getLast_notWs (p q : List Char) (hq : normalize_prompt p = q) :
    ∀ c r, q = r ++ [c] → isWs c = false := by
  subst hq
  unfold normalize_prompt
  generalize (stopwords.foldl (fun acc sw => removeAll sw acc) (toLowerStr p)) = Y
  intro c r hq2
  exact stripWs_getLast_notWs (collapseWs Y) c r hq2

/-! Lemmas for permutation invariance of the sorted serialization (claim C7). -/

theorem sortPairs_eq_of_perm {α : Type} (l₁ l₂ : List (List Char × α))
    (hp : l₁.Perm l₂) (hnd : (l₁.map Prod.fst).Nodup) :
    sortPairs l₁ = sortPairs l₂ := by
  have hperm : (sortPairs l₁).Perm (sortPairs l₂) :=
    ((List.perm_insertionSort keyLe l₁).trans hp).trans (List.perm_insertionSort keyLe l₂).symm
  have hs₁ : List.Sorted keyLe (sortPairs l₁) := List.sorted_insertionSort keyLe l₁
  have hs₂ : List.Sorted keyLe (sortPairs l₂) := List.sorted_insertionSort keyLe l₂
  have hnd₁ : ((sortPairs l₁).map Prod.fst).Nodup :=
    hnd.perm ((List.perm_insertionSort keyLe l₁).map Prod.fst).symm
  have hnd₂ : ((sortPairs l₂).map Prod.fst).Nodup :=
    hnd.perm ((hp.map Prod.fst).trans ((List.perm_insertionSort keyLe l₂).map Prod.fst).symm)
  have hstrict : ∀ (l : List (List Char × α)), List.Sorted keyLe l →
      (l.map Prod.fst).Nodup → List.Sorted (fun a b => a.1 < b.1) l := by
    intro l hs hn
    induction l with
    | nil => exact List.sorted_nil
    | cons x xs ih =>
      rw [List.sorted_cons] at hs ⊢
      rw [List.map_cons, List.nodup_cons] at hn
      refine ⟨fun b hb => ?_, ih hs.2 hn.2⟩
      rcases lt_or_eq_of_le (hs.1 b hb) with h | h
      · exact h
      · exact absurd (h ▸ (List.mem_map_of_mem Prod.fst hb)) hn.1
  haveI : IsAntisymm (List Char × α) (fun a b => a.1 < b.1) :=
    ⟨fun a b h1 h2 => absurd (lt_trans h1 h2) (lt_irrefl _)⟩
  exact List.eq_of_perm_of_sorted hperm (hstrict _ hs₁ hnd₁) (hstrict _ hs₂ hnd₂)

theorem wfList_forall (xs : List Json) :
    wfList xs = true ↔ ∀ x ∈ xs, wfJson x = true := by
  induction xs with
  | nil => simp [wfList]
  | cons x xs ih => simp [wfList, Bool.and_eq_true, ih]

theorem wfKVs_forall (kvs : List (List Char × Json)) :
    wfKVs kvs = true ↔ ∀ kv ∈ kvs, wfJson kv.2 = true := by
  induction kvs with
  | nil => simp [wfKVs]
  | cons kv kvs ih =>
    simp only [wfKVs, Bool.and_eq_true, ih, List.mem_cons]
    constructor
    · rintro ⟨h1, h2⟩ x hx
      rcases hx with rfl | hx
      · exact h1
      · exact h2 x hx
    · intro h
      exact ⟨h kv (Or.inl rfl), fun x hx => h x (Or.inr hx)⟩

theorem mapSnd_fst {α β : Type} (f : α → β) (l : List (List Char × α)) :
    (mapSnd f l).map Prod.fst = l.map Prod.fst := by
  simp [mapSnd, List.map_map]

theorem mapSnd_eq_of {α β : Type} (f : α → β) :
    ∀ (l₁ l₂ : List (List Char × α)), l₁.map Prod.fst = l₂.map Prod.fst →
      (l₁.map Prod.snd).map f = (l₂.map Prod.snd).map f → mapSnd f l₁ = mapSnd f l₂ := by
  intro l₁
  induction l₁ with
  | nil =>
    intro l₂ hk _
    cases l₂ with
    | nil => rfl
    | cons b l₂ => simp at hk
  | cons a l₁ ih =>
    intro l₂ hk hv
    cases l₂ with
    | nil => simp at hk
    | cons b l₂ =>
      simp only [List.map_cons, List.cons.injEq] at hk hv
      simp only [mapSnd, List.map_cons, List.cons.injEq]
      refine ⟨?_, ?_⟩
      · have : a.1 = b.1 := hk.1
        rw [this, hv.1]
      · have h2 := ih l₂ hk.2 hv.2
        simpa [mapSnd] using h2

theorem map_dumps_eq_of_forall₂ {xs ys : List Json} (h : List.Forall₂ JsonPerm xs ys)
    (hpt : ∀ x ∈ xs, ∀ y, JsonPerm x y → dumps x = dumps y) :
    xs.map dumps = ys.map dumps := by
  induction h with
  | nil => rfl
  | cons hxy htail ih =>
    simp only [List.map_cons]
    rw [hpt _ (by simp) _ hxy]
    rw [ih (fun x hx y hpy => hpt x (List.mem_cons_of_mem _ hx) y hpy)]

theorem dumps_eq_of_jsonPerm :
    ∀ c, wfJson c = true → ∀ c2, JsonPerm c c2 → dumps c = dumps c2 := by
  refine jsonInduction _ ?_ ?_ ?_ ?_ ?_ ?_
  · intro _ c2 hp
    cases hp
    rfl
  · intro b _ c2 hp
    cases hp
    rfl
  · intro n _ c2 hp
    cases hp
    rfl
  · intro s _ c2 hp
    cases hp
    rfl
  · intro xs ih hwf c2 hp
    cases hp
    case arr ys hf =>
      rw [dumps, dumps, dumpsList_eq_map, dumpsList_eq_map]
      have hwf2 : ∀ x ∈ xs, wfJson x = true := (wfList_forall xs).mp (by simpa [wfJson] using hwf)
      exact congrArg (fun t => '[' :: joinComma t ++ [']'])
        (map_dumps_eq_of_forall₂ hf (fun x hx y hpy => ih x hx (hwf2 x hx) y hpy))
  · intro kvs ih hwf c2 hp
    cases hp
    case obj kvs2 kvs3 hperm hk hv =>
      rw [dumps, dumps]
      have hwfn : (kvs.map Prod.fst).Nodup ∧ wfKVs kvs = true := by
        have h6 := hwf
        simp only [wfJson, Bool.and_eq_true, decide_eq_true_eq] at h6
        exact h6
      have hwf2 : ∀ kv ∈ kvs, wfJson kv.2 = true := (wfKVs_forall kvs).mp hwfn.2
      have hvals : (kvs.map Prod.snd).map dumps = (kvs2.map Prod.snd).map dumps := by
        refine map_dumps_eq_of_forall₂ hv ?_
        intro x hx y hpy
        obtain ⟨kv, hkv, rfl⟩ := List.mem_map.mp hx
        exact ih kv hkv (hwf2 kv hkv) y hpy
      have h12 : dumpsKVs kvs = dumpsKVs kvs2 := by
        rw [dumpsKVs_eq_mapSnd, dumpsKVs_eq_mapSnd]
        exact mapSnd_eq_of dumps kvs kvs2 hk hvals
      have h23 : (dumpsKVs kvs2).Perm (dumpsKVs kvs3) := by
        rw [dumpsKVs_eq_mapSnd, dumpsKVs_eq_mapSnd]
        exact hperm.map _
      have hnd2 : ((dumpsKVs kvs2).map Prod.fst).Nodup := by
        rw [dumpsKVs_eq_mapSnd, mapSnd_fst, ← hk]
        exact hwfn.1
      have hsort : sortPairs (dumpsKVs kvs) = sortPairs (dumpsKVs kvs3) := by
        rw [h12]
        exact sortPairs_eq_of_perm _ _ h23 hnd2
      rw [hsort]

/-! Lemmas for the validator, runner and client claims. -/

theorem filterMap_ne_nil_of_any {α β : Type} (l : List α) (p : α → Bool) (f : α → β)
    (h : l.any p = true) :
    l.filterMap (fun x => if p x then some (f x) else none) ≠ [] := by
  induction l with
  | nil => simp at h
  | cons a l ih =>
    by_cases hp : p a = true
    · simp [List.filterMap_cons, hp]
    · rw [List.any_cons, Bool.or_eq_true] at h
      rcases h with h | h
      · exact absurd h hp
      · simpa [List.filterMap_cons, hp] using ih h

theorem postRun_events (pfx : List Char) (select : Option (List (List Char)))
    (r : (Bool × Json × List Char) × List RunEvent) :
    (postRun pfx select r).2 = r.2 := by
  unfold postRun
  dsimp only
  split
  · rfl
  · split
    · split
      · rfl
      · rfl
    · rfl

theorem run_script_validate_count (sc : List Char)
    (parsed : Except (List Char) (List (List Char))) (m : Manifest)
    (install : Option (List Char)) (po : ProcOutcome) :
    ((run_script (some sc) parsed m install po).2).count RunEvent.validate = 1 := by
  simp only [run_script]
  by_cases h : validate_script sc parsed m ≠ []
  · rw [if_pos h]
    rfl
  · rw [if_neg h]
    by_cases hd : m.deps ≠ []
    · rw [if_pos hd]
      cases install with
      | none => simp [hd]
      | some e => rfl
    · rw [if_neg hd]
      simp [hd]

theorem two_le_splitOnP_length (xs : List Char) (h : '\n' ∈ xs) :
    2 ≤ (List.splitOnP (fun c => c == '\n') xs).length := by
  induction xs with
  | nil => simp at h
  | cons c xs ih =>
    rw [List.splitOnP_cons]
    by_cases hc : (c == '\n') = true
    · rw [if_pos hc]
      have h1 : 0 < (List.splitOnP (fun c => c == '\n') xs).length :=
        List.length_pos.mpr (List.splitOnP_ne_nil _ xs)
      simp only [List.length_cons]
      omega
    · rw [if_neg hc]
      have hcc : c ≠ '\n' := by simpa using hc
      have h2 : '\n' ∈ xs := by
        rcases List.mem_cons.mp h with h3 | h3
        · exact absurd h3.symm hcc
        · exact h3
      have h4 := ih h2
      cases hS : List.splitOnP (fun c => c == '\n') xs with
      | nil => exact absurd hS (List.splitOnP_ne_nil _ xs)
      | cons s S =>
        rw [hS] at h4
        simp only [List.modifyHead_cons, List.length_cons] at h4 ⊢
        omega

theorem getLastD_modifyHead_two (S : List (List Char)) (f : List Char → List Char)
    (h : 2 ≤ S.length) : (S.modifyHead f).getLastD [] = S.getLastD [] := by
  cases S with
  | nil => simp at h
  | cons x S2 =>
    cases S2 with
    | nil => simp at h
    | cons y t =>
      rw [List.modifyHead_cons, List.getLastD_cons, List.getLastD_cons,
        List.getLastD_cons, List.getLastD_cons]

/-- The line `_execute_script` parses is the final segment of its input:
it contains no newline, and everything before it is empty or ends with a
newline. -/
theorem lastSeg_decomp (l : List Char) :
    '\n' ∉ ((l.splitOn '\n').getLastD []) ∧
    ∃ A, l = A ++ ((l.splitOn '\n').getLastD []) ∧
      (A = [] ∨ ∃ B, A = B ++ ['\n']) := by
  induction l with
  | nil =>
    refine ⟨by simp [List.splitOn_nil], [], by simp [List.splitOn_nil], Or.inl rfl⟩
  | cons c xs ih =>
    simp only [List.splitOn] at ih ⊢
    rw [List.splitOnP_cons]
    by_cases hc : c = '\n'
    · subst hc
      rw [if_pos (by simp)]
      obtain ⟨hnot, A, hA, hside⟩ := ih
      have hlast : (([] : List Char) :: List.splitOnP (fun c => c == '\n') xs).getLastD [] =
          (List.splitOnP (fun c => c == '\n') xs).getLastD [] := by
        rw [List.getLastD_cons]
      rw [hlast]
      refine ⟨hnot, '\n' :: A, by rw [List.cons_append, ← hA], ?_⟩
      rcases hside with rfl | ⟨B, rfl⟩
      · exact Or.inr ⟨[], by simp⟩
      · exact Or.inr ⟨'\n' :: B, by simp⟩
    · rw [if_neg (by simpa using hc)]
      by_cases hm : '\n' ∈ xs
      · have h2 := two_le_splitOnP_length xs hm
        rw [getLastD_modifyHead_two _ _ h2]
        obtain ⟨hnot, A, hA, hside⟩ := ih
        refine ⟨hnot, c :: A, by rw [List.cons_append, ← hA], ?_⟩
        rcases hside with rfl | ⟨B, rfl⟩
        · rw [List.nil_append] at hA
          exact absurd (hA ▸ hm) hnot
        · exact Or.inr ⟨c :: B, by simp⟩
      · rw [List.splitOnP_eq_single _ xs (by
          intro x hx hpx
          exact hm ((by simpa using hpx : x = '\n') ▸ hx))]
        refine ⟨?_, [], by simp, Or.inl rfl⟩
        intro hmem
        rcases List.mem_cons.mp hmem with h3 | h3
        · exact hc h3.symm
        · exact hm h3

theorem isSubstr_iff (n h : List Char) : isSubstr n h = true ↔ n <:+: h := by
  unfold isSubstr
  rw [List.any_eq_true]
  constructor
  · rintro ⟨t, ht, hp⟩
    have h1 : t <:+ h := (List.mem_tails t h).mp ht
    have h2 : n <+: t := by simpa using hp
    exact List.infix_iff_prefix_suffix.mpr ⟨t, h2, h1⟩
  · intro hinf
    obtain ⟨t, h2, h1⟩ := List.infix_iff_prefix_suffix.mp hinf
    refine ⟨t, (List.mem_tails t h).mpr h1, by simpa using h2⟩

theorem dictInsert_keys (kvs : List (List Char × Json)) (k : List Char) (v : Json) :
    (dictInsert kvs k v).map Prod.fst =
      if (kvs.any fun kv => kv.1 == k) = true then kvs.map Prod.fst
      else kvs.map Prod.fst ++ [k] := by
  unfold dictInsert
  by_cases hin : (kvs.any fun kv => kv.1 == k) = true
  · rw [if_pos hin, if_pos hin]
    rw [List.map_map]
    refine List.map_congr_left ?_
    intro kv _
    by_cases hk : (kv.1 == k) = true
    · simp only [Function.comp]
      rw [if_pos hk]
      exact (eq_of_beq hk).symm
    · simp only [Function.comp]
      rw [if_neg hk]
  · rw [if_neg hin, if_neg hin]
    simp

theorem jLookup_replace_ne (kvs : List (List Char × Json)) (k2 : List Char) (v : Json)
    (k : List Char) (hk : k ≠ k2) :
    jLookup (kvs.map (fun kv => if kv.1 == k2 then (k2, v) else kv)) k = jLookup kvs k := by
  unfold jLookup
  induction kvs with
  | nil => rfl
  | cons a kvs ih =>
    simp only [List.map_cons]
    by_cases h2 : (a.1 == k2) = true
    · rw [if_pos h2]
      have ha : a.1 = k2 := eq_of_beq h2
      have hbk : ((k2, v).1 == k) = false := by
        simp [beq_eq_false_iff_ne]
        exact fun hh => hk hh.symm
      have hak : (a.1 == k) = false := by
        rw [ha]
        simpa using hbk
      rw [List.find?_cons_of_neg _ (by simp [hbk]), List.find?_cons_of_neg _ (by simp [hak])]
      exact ih
    · rw [if_neg h2]
      by_cases hak : (a.1 == k) = true
      · rw [List.find?_cons_of_pos _ (by simp [hak]), List.find?_cons_of_pos _ (by simp [hak])]
      · rw [List.find?_cons_of_neg _ (by simp [hak]), List.find?_cons_of_neg _ (by simp [hak])]
        exact ih

theorem jLookup_replace_eq (kvs : List (List Char × Json)) (k2 : List Char) (v : Json)
    (hany : (kvs.any fun kv => kv.1 == k2) = true) :
    jLookup (kvs.map (fun kv => if kv.1 == k2 then (k2, v) else kv)) k2 = some v := by
  unfold jLookup
  induction kvs with
  | nil => simp at hany
  | cons a kvs ih =>
    simp only [List.map_cons]
    by_cases h2 : (a.1 == k2) = true
    · rw [if_pos h2]
      rw [List.find?_cons_of_pos _ (by simp)]
    · rw [if_neg h2]
      rw [List.find?_cons_of_neg _ (by simp [h2])]
      rw [List.any_cons, Bool.or_eq_true] at hany
      rcases hany with h3 | h3
      · exact absurd h3 h2
      · exact ih h3

theorem jLookup_dictInsert (kvs : List (List Char × Json)) (k2 : List Char) (v : Json)
    (k : List Char) :
    jLookup (dictInsert kvs k2 v) k = if k = k2 then some v else jLookup kvs k := by
  unfold dictInsert
  by_cases hany : (kvs.any fun kv => kv.1 == k2) = true
  · rw [if_pos hany]
    by_cases hk : k = k2
    · subst hk
      rw [if_pos rfl]
      exact jLookup_replace_eq kvs k v hany
    · rw [if_neg hk]
      exact jLookup_replace_ne kvs k2 v k hk
  · rw [if_neg hany]
    by_cases hk : k = k2
    · subst hk
      rw [if_pos rfl]
      have hfind : jLookup kvs k = none := by
        unfold jLookup
        cases hf : kvs.find? (fun kv => kv.1 == k) with
        | none => rfl
        | some kv =>
          have h3 := List.find?_some hf
          have h4 := List.mem_of_find?_eq_some hf
          exact absurd (List.any_eq_true.mpr ⟨kv, h4, h3⟩) hany
      unfold jLookup at hfind ⊢
      rw [List.find?_append]
      cases hf : kvs.find? (fun kv => kv.1 == k) with
      | none => simp [List.find?]
      | some kv => rw [hf] at hfind; simp at hfind
    · rw [if_neg hk]
      unfold jLookup
      rw [List.find?_append]
      cases hf : kvs.find? (fun kv => kv.1 == k) with
      | none =>
        simp only [Option.or]
        rw [List.find?_cons_of_neg _ (by simp; exact fun hh => hk hh.symm)]
        simp [List.find?]
      | some kv => simp [Option.or]

theorem foldl_dictInsert_lookup (val : List Char → Json) :
    ∀ (sel : List (List Char)) (acc : List (List Char × Json)) (k : List Char),
      jLookup (sel.foldl (fun a k2 => dictInsert a k2 (val k2)) acc) k =
        if k ∈ sel then some (val k) else jLookup acc k := by
  intro sel
  induction sel with
  | nil => intro acc k; simp
  | cons k2 sel ih =>
    intro acc k
    rw [List.foldl_cons, ih]
    by_cases hmem : k ∈ sel
    · rw [if_pos hmem, if_pos (List.mem_cons_of_mem k2 hmem)]
    · rw [if_neg hmem, jLookup_dictInsert]
      by_cases hk : k = k2
      · subst hk
        rw [if_pos rfl, if_pos (List.mem_cons_self k sel)]
      · rw [if_neg hk, if_neg (by simp [hk, hmem])]

theorem foldl_dictInsert_keys (val : List Char → Json) :
    ∀ (sel : List (List Char)) (acc : List (List Char × Json)),
      (sel.foldl (fun a k2 => dictInsert a k2 (val k2)) acc).map Prod.fst =
        sel.foldl (fun a k => if a.contains k then a else a ++ [k]) (acc.map Prod.fst) := by
  intro sel
  induction sel with
  | nil => intro acc; rfl
  | cons k2 sel ih =>
    intro acc
    rw [List.foldl_cons, List.foldl_cons, ih, dictInsert_keys]
    have hcont : ((acc.map Prod.fst).contains k2) = (acc.any fun kv => kv.1 == k2) := by
      induction acc with
      | nil => rfl
      | cons a acc ih2 =>
        rw [List.map_cons, List.contains_cons, List.any_cons, ih2, Bool.beq_comm]
    rw [← hcont]

theorem projOutput_keys (sel : List (List Char)) (okvs : List (List Char × Json)) :
    (projOutput sel okvs).map Prod.fst = firstDedup sel := by
  unfold projOutput firstDedup
  exact foldl_dictInsert_keys (fun k => (jLookup okvs k).getD .null) sel []

theorem projOutput_lookup (sel : List (List Char)) (okvs : List (List Char × Json))
    (k : List Char) (hk : k ∈ sel) :
    jLookup (projOutput sel okvs) k = some ((jLookup okvs k).getD .null) := by
  unfold projOutput
  rw [foldl_dictInsert_lookup (fun k => (jLookup okvs k).getD .null) sel [] k, if_pos hk]

/-! ## Claim theorems -/

/-- C2: for every prompt, context, language and template version, the
fingerprint equals the first 16 hex characters of the SHA-256 digest of
`normalized_prompt|normalized_context|language|template_version`, where the
prompt is normalized by lowercasing, removing each of the twelve fixed
stopwords as literal (non word-boundary-aware) substring removals, then
collapsing whitespace runs to a single space and trimming (phrased on the
spec side as joining the whitespace-separated words with single spaces),
and the context is normalized by JSON-serializing with lexicographically
sorted keys and no extraneous whitespace.  `fingerprintSpec` is the
spec-side composition; `generate_fingerprint` is the source translation. -/
theorem C2_fingerprint_formula (prompt : List Char) (context : Json)
    (language tv : List Char) :
    generate_fingerprint prompt context language tv =
      fingerprintSpec prompt context language tv := by
  have h1 : normalize_prompt prompt = promptNormSpec prompt := by
    unfold normalize_prompt promptNormSpec
    rw [stripCollapse_eq_words]
    have hfun : (fun (acc : List Char) (sw : List Char) => removeOccurrences sw acc) =
        (fun (acc : List Char) (sw : List Char) => removeAll sw acc) := by
      funext acc sw
      exact removeOccurrences_eq_removeAll sw acc
    rw [hfun]
  have h2 : normalize_context context = dumpsSpec context := dumps_eq_dumpsSpec context
  unfold generate_fingerprint fingerprintSpec
  rw [h1, h2]

/-- C7: for any request the fingerprinter is deterministic (a pure
function, so repeated calls agree definitionally), and permuting the key
order of the context object — including nested objects — never changes the
fingerprint (for well-formed contexts, i.e. without duplicate keys). -/
theorem C7_fingerprint_perm_invariant (prompt language tv : List Char) (c c2 : Json)
    (hwf : wfJson c = true) (hperm : JsonPerm c c2) :
    generate_fingerprint prompt c language tv = generate_fingerprint prompt c language tv ∧
    generate_fingerprint prompt c language tv = generate_fingerprint prompt c2 language tv := by
  refine ⟨rfl, ?_⟩
  unfold generate_fingerprint normalize_context
  rw [dumps_eq_of_jsonPerm c hwf c2 hperm]

/-- Witness for C7 at a concrete context: `\x7b"a": 5, "b": 3\x7d` permuted
to `\x7b"b": 3, "a": 5\x7d`. -/
theorem C7_witness :
    generate_fingerprint "add numbers".data
        (.obj [("a".data, .num 5), ("b".data, .num 3)]) "python".data "1.0.0".data =
      generate_fingerprint "add numbers".data
        (.obj [("b".data, .num 3), ("a".data, .num 5)]) "python".data "1.0.0".data := by
  refine (C7_fingerprint_perm_invariant "add numbers".data "python".data "1.0.0".data
    (.obj [("a".data, .num 5), ("b".data, .num 3)])
    (.obj [("b".data, .num 3), ("a".data, .num 5)]) (by decide) ?_).2
  refine @JsonPerm.obj [("a".data, .num 5), ("b".data, .num 3)]
    [("a".data, .num 5), ("b".data, .num 3)]
    [("b".data, .num 3), ("a".data, .num 5)] rfl ?_ ?_
  · exact List.Forall₂.cons (JsonPerm.num 5) (List.Forall₂.cons (JsonPerm.num 3) List.Forall₂.nil)
  · exact List.Perm.swap ("b".data, Json.num 3) ("a".data, Json.num 5) []

/-- C8 counterexample: normalization is not idempotent.  Removing the
stopword `create` from `crcreateeate` leaves the string `create` (the
removal scan does not cascade), and a second normalization removes it. -/
theorem C8_counterexample :
    ¬ (normalize_prompt (normalize_prompt "crcreateeate".data) =
        normalize_prompt "crcreateeate".data) := by
  decide

/-- C8 (amended): prompt normalization is idempotent for every prompt whose
normalized form contains no stopword occurrence; in general a stopword
removal can create a new stopword occurrence by juxtaposition, and the
second normalization then differs (see the counterexample). -/
theorem C8_normalize_idempotent_of_no_stopword (p : List Char)
    (h : ∀ sw ∈ stopwords, ¬ sw <:+: normalize_prompt p) :
    normalize_prompt (normalize_prompt p) = normalize_prompt p := by
  have hlf := normalize_prompt_lowerFixed p
  generalize hq : normalize_prompt p = q at h hlf ⊢
  have hch : List.Chain' wsSep q := normalize_prompt_chain p q hq
  have hsp : ∀ x ∈ q, isWs x = true → x = ' ' := normalize_prompt_wsSpace p q hq
  have hhd : ∀ c r, q = c :: r → isWs c = false := normalize_prompt_head_notWs p q hq
  have hlt : ∀ c r, q = r ++ [c] → isWs c = false := normalize_prompt_getLast_notWs p q hq
  have h1 : toLowerStr q = q := toLowerStr_eq_self q hlf
  have h2 : stopwords.foldl (fun acc sw => removeAll sw acc) q = q :=
    foldl_removeAll_id _ _ h
  have h3 : collapseWs q = q := collapseWs_eq_self q hch hsp
  have h4 : stripWs q = q := stripWs_eq_self q hhd hlt
  show stripWs (collapseWs (stopwords.foldl (fun acc sw => removeAll sw acc)
    (toLowerStr q))) = q
  rw [h1, h2, h3, h4]

/-- Witness for the amended C8 at a concrete prompt whose normalized form
contains no stopword. -/
theorem C8_witness :
    (∀ sw ∈ stopwords, ¬ sw <:+: normalize_prompt "Hello world".data) ∧
    normalize_prompt (normalize_prompt "Hello world".data) =
      normalize_prompt "Hello world".data :=
  ⟨by decide, C8_normalize_idempotent_of_no_stopword "Hello world".data (by decide)⟩

/-- C1: whenever the validator returns a non-empty violation list, the
executor returns the failed result with status `error`, message
`Security validation failed` and the violation list attached, the only
recorded step is the validation itself, and in particular the script
subprocess is never spawned. -/
theorem C1_security_validation_blocks (sc : List Char)
    (parsed : Except (List Char) (List (List Char))) (m : Manifest)
    (install : Option (List Char)) (po : ProcOutcome)
    (h : validate_script sc parsed m ≠ []) :
    run_script (some sc) parsed m install po =
      ((false, Json.obj [("status".data, .str "error".data),
          ("message".data, .str "Security validation failed".data),
          ("errors".data, .arr ((validate_script sc parsed m).map .str))], []),
        [RunEvent.validate]) ∧
    RunEvent.spawn ∉ (run_script (some sc) parsed m install po).2 := by
  have h1 : run_script (some sc) parsed m install po =
      ((false, Json.obj [("status".data, .str "error".data),
          ("message".data, .str "Security validation failed".data),
          ("errors".data, .arr ((validate_script sc parsed m).map .str))], []),
        [RunEvent.validate]) := by
    simp only [run_script]
    rw [if_pos h]
  refine ⟨h1, ?_⟩
  rw [h1]
  simp

/-- Witness for C1: a script containing `eval(` yields violations and is
rejected without the subprocess being spawned. -/
theorem C1_witness :
    validate_script "x = eval( y)".data (.ok []) ⟨"main.py".data, [], false, []⟩ ≠ [] ∧
    run_script (some "x = eval( y)".data) (.ok []) ⟨"main.py".data, [], false, []⟩ none
        (.completed "r".data []) =
      ((false, Json.obj [("status".data, .str "error".data),
          ("message".data, .str "Security validation failed".data),
          ("errors".data, .arr ((validate_script "x = eval( y)".data (.ok [])
            ⟨"main.py".data, [], false, []⟩).map .str))], []),
        [RunEvent.validate]) ∧
    RunEvent.spawn ∉ (run_script (some "x = eval( y)".data) (.ok [])
        ⟨"main.py".data, [], false, []⟩ none (.completed "r".data [])).2 := by
  have h := C1_security_validation_blocks "x = eval( y)".data (.ok [])
    ⟨"main.py".data, [], false, []⟩ none (.completed "r".data []) (by decide)
  exact ⟨by decide, h.1, h.2⟩

/-- C3 counterexample: with a cache directory and manifest file present but
the manifest content unparsable as JSON, the run is surfaced as an error
result (`Failed to run cached script: ...`) and the generator is never
invoked — the corrupted entry is NOT transparently regenerated. -/
theorem C3_counterexample :
    RunEvent.generateScript ∉ (run false ⟨true, some "not json".data, some "print(1)".data⟩
        ⟨"ok".data, "print(1)".data, ⟨"script.py".data, [], false, []⟩, [], [], none⟩
        (.ok []) none (.completed "r".data []) none).2 ∧
    (run false ⟨true, some "not json".data, some "print(1)".data⟩
        ⟨"ok".data, "print(1)".data, ⟨"script.py".data, [], false, []⟩, [], [], none⟩
        (.ok []) none (.completed "r".data []) none).1 =
      errResult ("Failed to run cached script: ".data ++ "manifest JSON decode error".data)
        (.str "manifest JSON decode error".data) :=
  ⟨by decide, rfl⟩

/-- C3 (corrected): the cache lookup is a hit iff `refresh` is unset and
the fingerprint directory and its `manifest.json` file exist — parsability
is not part of the hit test; when the cached manifest fails to parse, the
run returns an error result with message prefix
`Failed to run cached script: ` and the generator is never invoked, so a
corrupted entry is surfaced as a failed run, not regenerated. -/
theorem C3_corrupt_manifest_not_regenerated (cs : CacheState) (resp : GenResponse)
    (parsed : Except (List Char) (List (List Char))) (install : Option (List Char))
    (po : ProcOutcome) (select : Option (List (List Char))) (raw : List Char)
    (hdir : cs.dirExists = true) (hmf : cs.manifestFile = some raw)
    (hbad : loads raw = none) :
    run false cs resp parsed install po select =
      (errResult ("Failed to run cached script: ".data ++ "manifest JSON decode error".data)
        (.str "manifest JSON decode error".data), []) ∧
    RunEvent.generateScript ∉ (run false cs resp parsed install po select).2 := by
  have h1 : run false cs resp parsed install po select =
      _run_cached_script cs parsed install po select := by
    unfold run
    rw [hdir, hmf]
    rfl
  have h2 : _run_cached_script cs parsed install po select =
      (errResult ("Failed to run cached script: ".data ++ "manifest JSON decode error".data)
        (.str "manifest JSON decode error".data), []) := by
    unfold _run_cached_script
    rw [hmf]
    dsimp only
    rw [hbad]
  refine ⟨h1.trans h2, ?_⟩
  rw [h1, h2]
  simp

/-- Witness for the corrected C3 at a concrete corrupted cache entry. -/
theorem C3_witness :
    run false ⟨true, some "not json".data, some "print(1)".data⟩
        ⟨"ok".data, "print(1)".data, ⟨"script.py".data, [], false, []⟩, [], [], none⟩
        (.ok []) none (.completed "r".data []) none =
      (errResult ("Failed to run cached script: ".data ++ "manifest JSON decode error".data)
        (.str "manifest JSON decode error".data), []) ∧
    RunEvent.generateScript ∉ (run false ⟨true, some "not json".data, some "print(1)".data⟩
        ⟨"ok".data, "print(1)".data, ⟨"script.py".data, [], false, []⟩, [], [], none⟩
        (.ok []) none (.completed "r".data []) none).2 :=
  C3_corrupt_manifest_not_regenerated ⟨true, some "not json".data, some "print(1)".data⟩
    ⟨"ok".data, "print(1)".data, ⟨"script.py".data, [], false, []⟩, [], [], none⟩
    (.ok []) none (.completed "r".data []) none "not json".data rfl rfl rfl

/-- C4 counterexample: the validator IS invoked on the cached-execution
path (a well-formed cached entry is re-validated on every run), refuting
"on the cached-execution path the validator is never invoked". -/
theorem C4_counterexample :
    RunEvent.validate ∈ (run false
      ⟨true, some "\x7b\"entry\": \"script.py\"\x7d".data, some "print(1)".data⟩
      ⟨"ok".data, "print(1)".data, ⟨"script.py".data, [], false, []⟩, [], [], none⟩
      (.ok []) none (.completed "r".data []) none).2 := by
  decide

/-- C4 (corrected): security validation runs on every execution, not once
at generation time: each `run_script` call — on the cached path as well as
the generation path — performs exactly one validation; moreover on the
generation path the artifacts are saved before validation runs (the
`saveArtifacts` event precedes the validation inside `run_script`). -/
theorem C4_validation_on_every_execution (cs : CacheState) (resp : GenResponse)
    (parsed : Except (List Char) (List (List Char))) (install : Option (List Char))
    (po : ProcOutcome) (select : Option (List (List Char)))
    (raw : List Char) (mj : Json) (m : Manifest) (sc : List Char)
    (hmf : cs.manifestFile = some raw) (hload : loads raw = some mj)
    (hman : manifestOfJson mj = some m) (hsf : cs.scriptFile = some sc)
    (hok : resp.status = "ok".data) :
    ((_run_cached_script cs parsed install po select).2).count RunEvent.validate = 1 ∧
    ∃ evs, (_generate_and_run_script resp parsed install po select).2 =
      RunEvent.generateScript :: RunEvent.saveArtifacts :: evs ∧
      evs.count RunEvent.validate = 1 := by
  have hc : _run_cached_script cs parsed install po select =
      postRun "Failed to run cached script: ".data select
        (run_script cs.scriptFile parsed m install po) := by
    unfold _run_cached_script
    rw [hmf]
    dsimp only
    rw [hload]
    dsimp only
    rw [hman]
  refine ⟨?_, ?_⟩
  · rw [hc, postRun_events, hsf]
    exact run_script_validate_count sc parsed m install po
  · refine ⟨(postRun "Failed to generate and run script: ".data select
      (run_script (some resp.script) parsed resp.manifest install po)).2, ?_, ?_⟩
    · unfold _generate_and_run_script
      rw [hok, if_neg (fun hh => hh rfl)]
      rfl
    · rw [postRun_events]
      exact run_script_validate_count resp.script parsed resp.manifest install po

/-- Witness for the corrected C4 at a concrete cached entry and a concrete
generation response. -/
theorem C4_witness :
    ((_run_cached_script
        ⟨true, some "\x7b\"entry\": \"script.py\"\x7d".data, some "print(1)".data⟩
        (.ok []) none (.completed "r".data []) none).2).count RunEvent.validate = 1 ∧
    ∃ evs, (_generate_and_run_script
        ⟨"ok".data, "print(1)".data, ⟨"script.py".data, [], false, []⟩, [], [], none⟩
        (.ok []) none (.completed "r".data []) none).2 =
      RunEvent.generateScript :: RunEvent.saveArtifacts :: evs ∧
      evs.count RunEvent.validate = 1 :=
  C4_validation_on_every_execution
    ⟨true, some "\x7b\"entry\": \"script.py\"\x7d".data, some "print(1)".data⟩
    ⟨"ok".data, "print(1)".data, ⟨"script.py".data, [], false, []⟩, [], [], none⟩
    (.ok []) none (.completed "r".data []) none
    "\x7b\"entry\": \"script.py\"\x7d".data (.obj [("entry".data, .str "script.py".data)])
    ⟨"script.py".data, [], false, []⟩ "print(1)".data rfl rfl rfl rfl rfl

/-- C5 counterexample: the import name `Flask` against a manifest declaring
the dependency `Flask==2.0.0`: the code compares the name verbatim against
the lowercased dependency and rejects it, while the claimed fully
case-insensitive comparison would accept it. -/
theorem C5_counterexample :
    ¬ (_is_import_allowed "Flask".data ⟨"app.py".data, ["Flask==2.0.0".data], false, []⟩ =
       claimImportAllowed "Flask".data ⟨"app.py".data, ["Flask==2.0.0".data], false, []⟩) := by
  decide

/-- C5 (corrected): an import passes `_is_import_allowed` iff its name is
in the fixed allowlist or the name occurs verbatim as a substring of some
lowercased dependency string — the dependency is lowercased but the import
name is not, so the match is case-insensitive only in the dependency; and
every collected import name failing this test appends the violation
`Import not allowed: <name>`. -/
theorem C5_import_allowed_iff (name : List Char) (m : Manifest) :
    (_is_import_allowed name m = true ↔
      name ∈ allowed_imports ∨ ∃ dep ∈ m.deps, name <:+: toLowerStr dep) ∧
    ∀ (sc : List Char) (imports : List (List Char)),
      name ∈ imports → _is_import_allowed name m = false →
        ("Import not allowed: ".data ++ name) ∈ validate_script sc (.ok imports) m := by
  constructor
  · unfold _is_import_allowed
    simp only [Bool.or_eq_true, List.any_eq_true, List.contains_iff_exists_mem_beq,
      beq_iff_eq, isSubstr_iff]
    constructor
    · rintro (⟨b, hb, rfl⟩ | ⟨dep, hdep, hsub⟩)
      · exact Or.inl hb
      · exact Or.inr ⟨dep, hdep, hsub⟩
    · rintro (hb | ⟨dep, hdep, hsub⟩)
      · exact Or.inl ⟨name, hb, rfl⟩
      · exact Or.inr ⟨dep, hdep, hsub⟩
  · intro sc imports hmem hnot
    simp only [validate_script]
    refine List.mem_append.mpr (Or.inr ?_)
    refine List.mem_filterMap.mpr ⟨name, hmem, ?_⟩
    simp [hnot]

/-- Witness for the corrected C5: `yaml` is allowed via the allowlist, and
`Flask` with dependency `Flask==2.0.0` is rejected with a violation. -/
theorem C5_witness :
    (_is_import_allowed "yaml".data ⟨"e".data, [], false, []⟩ = true ↔
      "yaml".data ∈ allowed_imports ∨
        ∃ dep ∈ (⟨"e".data, [], false, []⟩ : Manifest).deps, "yaml".data <:+: toLowerStr dep) ∧
    ("Import not allowed: ".data ++ "Flask".data) ∈
      validate_script "import Flask".data (.ok ["Flask".data])
        ⟨"e".data, ["Flask==2.0.0".data], false, []⟩ :=
  ⟨(C5_import_allowed_iff "yaml".data ⟨"e".data, [], false, []⟩).1,
   (C5_import_allowed_iff "Flask".data ⟨"e".data, ["Flask==2.0.0".data], false, []⟩).2
     "import Flask".data ["Flask".data] (by decide) (by decide)⟩

/-- C6: for a completed subprocess, the last line of the stripped stdout
is parsed as JSON and returned when it parses; a non-empty stdout whose
last line does not parse falls back to a `status=ok` raw-output result;
an empty stdout yields `status=error, message=No output from script` with
stdout/stderr attached.  The parsed line is the final segment of the
stripped stdout (it contains no newline, everything before it is empty or
ends in a newline), and it is the last non-empty line: it is non-empty
whenever the stripped stdout is. -/
theorem C6_stdout_parsing (stdout stderr : List Char) :
    (stdout = [] → _execute_script (.completed stdout stderr) =
      Json.obj [("status".data, .str "error".data),
        ("message".data, .str "No output from script".data),
        ("raw".data, .obj [("stdout".data, .str stdout), ("stderr".data, .str stderr)])]) ∧
    (∀ j, stdout ≠ [] → loads (lastLineCode stdout) = some j →
      _execute_script (.completed stdout stderr) = j) ∧
    (stdout ≠ [] → loads (lastLineCode stdout) = none →
      _execute_script (.completed stdout stderr) =
        Json.obj [("status".data, .str "ok".data), ("artifacts".data, .arr []),
          ("output".data, .obj [("raw_output".data, .str stdout)]),
          ("raw".data, .obj [("stdout".data, .str stdout), ("stderr".data, .str stderr)])]) ∧
    ('\n' ∉ lastLineCode stdout ∧
      ∃ A, stripWs stdout = A ++ lastLineCode stdout ∧ (A = [] ∨ ∃ B, A = B ++ ['\n'])) ∧
    (stripWs stdout ≠ [] → lastLineCode stdout ≠ []) := by
  refine ⟨?_, ?_, ?_, lastSeg_decomp (stripWs stdout), ?_⟩
  · intro h
    subst h
    rfl
  · intro j hne hsome
    simp only [_execute_script]
    rw [if_pos hne, hsome]
  · intro hne hnone
    simp only [_execute_script]
    rw [if_pos hne, hnone]
  · intro hne hnil
    obtain ⟨hnot, A, hA, hside⟩ := lastSeg_decomp (stripWs stdout)
    unfold lastLineCode at hnil
    rw [hnil, List.append_nil] at hA
    rcases hside with rfl | ⟨B, rfl⟩
    · exact hne hA
    · have := stripWs_getLast_notWs stdout '\n' B hA
      simp [isWs] at this

/-- Witness for C6: a two-line stdout whose last line is a JSON object is
parsed and returned. -/
theorem C6_witness :
    ("x\n\x7b\"a\": 1\x7d".data ≠ ([] : List Char)) ∧
    loads (lastLineCode "x\n\x7b\"a\": 1\x7d".data) = some (.obj [("a".data, .num 1)]) ∧
    _execute_script (.completed "x\n\x7b\"a\": 1\x7d".data []) =
      Json.obj [("a".data, .num 1)] :=
  ⟨by decide, rfl,
   (C6_stdout_parsing "x\n\x7b\"a\": 1\x7d".data []).2.1
     (Json.obj [("a".data, .num 1)]) (by decide) rfl⟩

/-- C9: when a non-empty `select` list is given and the result has a
truthy (non-empty) output mapping, the output is replaced by the
projection onto the selected keys: the projection step returns `some`
result (it never fails), its keys are exactly the requested keys in first
occurrence order, and each selected key maps to the output's value for it,
or `null` when the key is missing. -/
theorem C9_select_projection (sel : List (List Char)) (rkvs okvs : List (List Char × Json))
    (hsel : sel ≠ []) (hout : jLookup rkvs "output".data = some (.obj okvs))
    (hne : okvs ≠ []) :
    applySelect (some sel) rkvs =
      some (dictInsert rkvs "output".data (.obj (projOutput sel okvs))) ∧
    (projOutput sel okvs).map Prod.fst = firstDedup sel ∧
    ∀ k ∈ sel, jLookup (projOutput sel okvs) k = some ((jLookup okvs k).getD .null) := by
  refine ⟨?_, projOutput_keys sel okvs, fun k hk => projOutput_lookup sel okvs k hk⟩
  unfold applySelect
  dsimp only
  rw [hout]
  rw [if_pos ⟨hsel, by simp [jTruthy, hne]⟩]

/-- Witness for C9 at the spec's example: output
`\x7b"title": "x", "price": 10, "currency": "ARS"\x7d` with
`select = ["title", "price"]` projects to exactly
`\x7b"title": "x", "price": 10\x7d`. -/
theorem C9_witness :
    applySelect (some ["title".data, "price".data])
        [("status".data, Json.str "ok".data),
         ("output".data, Json.obj [("title".data, Json.str "x".data),
           ("price".data, Json.num 10), ("currency".data, Json.str "ARS".data)])] =
      some [("status".data, Json.str "ok".data),
        ("output".data, Json.obj [("title".data, Json.str "x".data),
          ("price".data, Json.num 10)])] ∧
    projOutput ["title".data, "price".data]
        [("title".data, Json.str "x".data), ("price".data, Json.num 10),
         ("currency".data, Json.str "ARS".data)] =
      [("title".data, Json.str "x".data), ("price".data, Json.num 10)] := by
  have h := C9_select_projection ["title".data, "price".data]
      [("status".data, Json.str "ok".data),
       ("output".data, Json.obj [("title".data, Json.str "x".data),
         ("price".data, Json.num 10), ("currency".data, Json.str "ARS".data)])]
      [("title".data, Json.str "x".data), ("price".data, Json.num 10),
       ("currency".data, Json.str "ARS".data)]
      (by simp) rfl (by simp)
  refine ⟨?_, rfl⟩
  rw [h.1]
  rfl

/-- C10: the pattern denylist is applied to the raw (lowercased) source
text, not the syntax tree: whenever any blocked pattern matches the raw
text — regardless of whether the script parses, and for occurrences inside
comments or string literals, which parse to no call at all — validation
returns a non-empty violation list. -/
theorem C10_raw_text_denylist (sc : List Char)
    (parsed : Except (List Char) (List (List Char))) (m : Manifest)
    (h : blocked_patterns.any (fun pr => reSearch pr.1 (toLowerStr sc)) = true) :
    validate_script sc parsed m ≠ [] := by
  have h1 := filterMap_ne_nil_of_any blocked_patterns
    (fun pr => reSearch pr.1 (toLowerStr sc))
    (fun pr => "Blocked pattern detected: ".data ++ pr.2) h
  simp only [validate_script]
  intro hEq
  exact h1 (List.append_eq_nil.mp hEq).1

/-- Witness for C10: a script that is a single comment containing `eval(`
— syntactically inert, the parser sees no imports — is still rejected. -/
theorem C10_witness :
    (blocked_patterns.any
      (fun pr => reSearch pr.1 (toLowerStr "# eval(x) never runs".data))) = true ∧
    validate_script "# eval(x) never runs".data (.ok [])
      ⟨"main.py".data, [], false, []⟩ ≠ [] :=
  ⟨by decide,
   C10_raw_text_denylist "# eval(x) never runs".data (.ok [])
     ⟨"main.py".data, [], false, []⟩ (by decide)⟩

end Capibara
